import Mathlib

/-!
Verification of the Asset Library Batch Processor
(`Scripting2023_A2_2DAE03_NooyvanderKolff_Cesanne.py`).

The development shallowly embeds the three verified components:
* the geometry normalizer (`__adjust_dimensions`, `__adjust_pivots`),
  with Python floats modelled as rationals and Python's `ZeroDivisionError`
  modelled by `Option`;
* the selection tree (`BatchProcessor.FileTree`) with its mutable
  `included` / font / checkbox-enabled state modelled as a pure tree of
  records, parent-pointer mutation modelled as path-indexed updates;
* the output-writing step (`__write_file` and the non-fbx copy branch of
  `__run_processor`), with the file system modelled as the list of paths
  that currently exist.
-/

namespace BatchProc

/-! ## Python numeric primitives -/

/-- Python 3 `round` on an exact rational: round-half-to-even. -/
def pyRound (q : ℚ) : ℤ :=
  let f := ⌊q⌋
  let r := q - f
  if r < 1/2 then f
  else if 1/2 < r then f + 1
  else if f % 2 = 0 then f else f + 1

/-- Python division `a / b`, raising `ZeroDivisionError` (modelled `none`)
on a zero denominator. -/
def pydiv (a b : ℚ) : Option ℚ := if b = 0 then none else some (a / b)

/-! ## Geometry normalizer: data -/

/-- A world-space bounding box, as produced by `cmds.exactWorldBoundingBox`
(first three entries the minimum corner, last three the maximum corner). -/
structure BBox where
  bmin : Fin 3 → ℚ
  bmax : Fin 3 → ℚ

/-- The six-element list `[xmin, ymin, zmin, xmax, ymax, zmax]` that the
Maya query returns, as an indexing function (`bbox[k]` in the source). -/
def bboxArr (b : BBox) (k : ℕ) : ℚ :=
  if h : k < 3 then b.bmin ⟨k, h⟩
  else if h2 : k < 6 then b.bmax ⟨k - 3, by omega⟩
  else 0

/-- `cur_dimensions[i] = bbox[3+i] - bbox[i]` (line 1188 of the source). -/
def curDim (b : BBox) (i : Fin 3) : ℚ := b.bmax i - b.bmin i

/-- The scaling-relevant configuration of the `BatchProcessor` object:
`allow_stretching`, the four text-field values `scale[0..3]`, and
`main_axis`. -/
structure ScaleConfig where
  allowStretching : Bool
  scale : Fin 4 → ℚ
  mainAxis : Fin 3

/-- `self.scale[:3]`, the per-axis grid spacing used when stretching is
allowed. -/
def ScaleConfig.gridSpacing (cfg : ScaleConfig) (i : Fin 3) : ℚ :=
  cfg.scale ⟨i.1, by omega⟩

/-- `self.scale[3]`, the uniform grid size used when stretching is not
allowed. -/
def ScaleConfig.uniform (cfg : ScaleConfig) : ℚ := cfg.scale 3

/-- Result of `__adjust_dimensions` for one object: the computed scale
vector (the Python list `scale`) and the two warning flags
`warning_grid` / `warning_stretch`. -/
structure ScaleResult where
  scale : List ℚ
  warnGrid : Bool
  warnStretch : Bool
deriving DecidableEq

/-- The two kinds of warning line `__adjust_dimensions` can write to the
log for one object. -/
inductive WarnKind where
  | grid
  | stretch
deriving DecidableEq

/-- The warning lines logged for one object, in source order: the
grid-deviation warning (if `warning_grid`), then the stretch warning
(if `warning_stretch`). -/
def warningList (r : ScaleResult) : List WarnKind :=
  (if r.warnGrid then [WarnKind.grid] else []) ++
  (if r.warnStretch then [WarnKind.stretch] else [])

/-! ## Geometry normalizer: `__adjust_dimensions` (lines 1183-1228) -/

/-- Lines 1190-1196: the target grid.  When stretching is allowed the
grid is `self.scale[:3]`; otherwise
`grid[i] = cur_dimensions[i] / cur_dimensions[main_axis] * self.scale[3]`,
which raises `ZeroDivisionError` when the main-axis dimension is zero. -/
def gridOf (cfg : ScaleConfig) (cur : Fin 3 → ℚ) : Option (Fin 3 → ℚ) :=
  if cfg.allowStretching then some (fun i => cfg.gridSpacing i)
  else if cur cfg.mainAxis = 0 then none
  else some (fun i => cur i / cur cfg.mainAxis * cfg.uniform)

/-- Line 1203:
`scale_dim = grid[i] / cur_dimensions[i] * max(round(cur_dimensions[i]/grid[i]), 1)`,
with the two divisions raising `ZeroDivisionError` (in source order) on a
zero denominator. -/
def axisStep (grid cur : Fin 3 → ℚ) (i : Fin 3) : Option ℚ :=
  if cur i = 0 then none
  else if grid i = 0 then none
  else some (grid i / cur i * ((max (pyRound (cur i / grid i)) 1 : ℤ) : ℚ))

/-- Line 1206: `not 0.55 < scale_dim < 1.45`. -/
def gridWarn (s : ℚ) : Bool := !(decide (0.55 < s) && decide (s < 1.45))

/-- Line 1211: `not 0.85 < stretch < 1.15`. -/
def stretchWarn (st : ℚ) : Bool := !(decide (0.85 < st) && decide (st < 1.15))

/-- `__adjust_dimensions` for a single object: dimensions from the
bounding box, grid selection, then the axis loop `for i in range(3)` with
its inner pair loop `for j in range(i)`, accumulating the two warning
flags.  Any `ZeroDivisionError` aborts the run (`none`). -/
def computeScale (cfg : ScaleConfig) (b : BBox) : Option ScaleResult := do
  let cur := curDim b
  let grid ← gridOf cfg cur
  let s0 ← axisStep grid cur 0
  let wg0 := gridWarn s0
  let s1 ← axisStep grid cur 1
  let wg1 := wg0 || gridWarn s1
  let st01 ← pydiv s0 s1
  let ws1 := stretchWarn st01
  let s2 ← axisStep grid cur 2
  let wg2 := wg1 || gridWarn s2
  let st02 ← pydiv s0 s2
  let ws2 := ws1 || stretchWarn st02
  let st12 ← pydiv s1 s2
  let ws3 := ws2 || stretchWarn st12
  pure ⟨[s0, s1, s2], wg2, ws3⟩

/-- The closed form of line 1203 when no division fails. -/
def scaleFormula (grid cur : Fin 3 → ℚ) (i : Fin 3) : ℚ :=
  grid i / cur i * ((max (pyRound (cur i / grid i)) 1 : ℤ) : ℚ)

/-! ## Geometry normalizer: `__adjust_pivots` (lines 1151-1173) -/

/-- Lines 1162-1166: the new pivot, per axis.  `self.pivot_placement[i]`
is `0` (min), `1` (middle) or `2` (max); for the non-middle cases the
source indexes `bbox[int(placement/2) * 3 + i]`. -/
def computePivot (placement : Fin 3 → ℕ) (b : BBox) (i : Fin 3) : ℚ :=
  if placement i = 1 then (bboxArr b i.1 + bboxArr b (i.1 + 3)) / 2
  else bboxArr b (placement i / 2 * 3 + i.1)

/-! ## Concrete geometry inputs used in witnesses and counterexamples -/

/-- Configuration used in the C2 counterexample: stretching allowed, all
four grid text fields equal to `1`. -/
def cfgC2 : ScaleConfig := ⟨true, fun _ => 1, 0⟩

/-- Bounding box used in the C2 counterexample: `max` is below `min` on the
x axis, so the x dimension is `-1 ≤ 0`. -/
def bC2 : BBox := ⟨fun _ => 0, ![-1, 1, 1]⟩

/-- Stretching allowed, every grid text field `1`. -/
def cfgUnit : ScaleConfig := ⟨true, fun _ => 1, 0⟩

/-- No stretching, every grid text field `1`, main axis x. -/
def cfgNoStretch : ScaleConfig := ⟨false, fun _ => 1, 0⟩

/-- The unit bounding box `[0,0,0] - [1,1,1]`. -/
def bUnit : BBox := ⟨fun _ => 0, fun _ => 1⟩

/-- The bounding box `[0,0,0] - [2,4,6]` from the specification's pivot
example. -/
def bPivot : BBox := ⟨fun _ => 0, ![2, 4, 6]⟩

/-! ## Selection tree: data

`BatchProcessor.FileTree` keeps, per node: the root path, the display
name, the `included` flag, the `bolded` flag, the label font (plain /
bold / oblique), the checkbox `en`abled state (cleared by `prune_fbx`,
i.e. the node is *masked* when `enabled = false`), and the `__filtered`
flag set by the text search.  The mutable UI tree with parent pointers is
modelled as a pure tree; an operation "on the parent" becomes an
operation at the parent's path. -/

/-- The label font of a `FileTree` node: `plainLabelFont`,
`boldLabelFont` or `obliqueLabelFont`. -/
inductive Font where
  | plain
  | bold
  | oblique
deriving DecidableEq

/-- The per-node state of a `FileTree` node. -/
structure NData where
  path : String
  name : String
  included : Bool
  bolded : Bool
  font : Font
  enabled : Bool
  filtered : Bool
deriving DecidableEq

/-- A `FileTree` node together with its ordered children. -/
inductive FT where
  | node (data : NData) (children : List FT)

mutual

def FT.decEq : (a b : FT) → Decidable (a = b)
  | .node d1 cs1, .node d2 cs2 =>
    match (inferInstanceAs (DecidableEq NData)) d1 d2, FT.decEqList cs1 cs2 with
    | isTrue hd, isTrue hc => isTrue (by rw [hd, hc])
    | isFalse hd, _ => isFalse (fun h => by cases h; exact hd rfl)
    | _, isFalse hc => isFalse (fun h => by cases h; exact hc rfl)

def FT.decEqList : (a b : List FT) → Decidable (a = b)
  | [], [] => isTrue rfl
  | [], _ :: _ => isFalse (by simp)
  | _ :: _, [] => isFalse (by simp)
  | a :: as, b :: bs =>
    match FT.decEq a b, FT.decEqList as bs with
    | isTrue h1, isTrue h2 => isTrue (by rw [h1, h2])
    | isFalse h1, _ => isFalse (fun h => by cases h; exact h1 rfl)
    | _, isFalse h2 => isFalse (fun h => by cases h; exact h2 rfl)

end

instance : DecidableEq FT := FT.decEq

/-- The state record of a node. -/
def FT.data : FT → NData
  | .node d _ => d

/-- The ordered children of a node. -/
def FT.children : FT → List FT
  | .node _ cs => cs

/-! ## Selection tree: operations -/

/-- `FileTree.set_included` (lines 248-261): set the checkbox and
`included`; bold the label when turned off, make it plain otherwise. -/
def setIncludedData (d : NData) (v : Bool) : NData :=
  { d with included := v, bolded := !v, font := if v then Font.plain else Font.bold }

mutual

/-- `FileTree.include` / `FileTree.include_children` applied from a node
downward (lines 263-292 minus the upward call): set the node like
`set_included` and recurse into every child. -/
def includeDown (v : Bool) : FT → FT
  | .node d cs => .node (setIncludedData d v) (includeDownList v cs)

def includeDownList (v : Bool) : List FT → List FT
  | [] => []
  | c :: cs => includeDown v c :: includeDownList v cs

end

/-- `FileTree.child_include` (lines 294-332) acting on one node: returns
the updated node and whether `change_state` held (the caller recurses to
the parent exactly in that case, when the node's depth exceeds 1). -/
def childIncludeNode (t : FT) (state : Bool) : FT × Bool :=
  match t with
  | .node d cs =>
    let changeState := (d.included != state) &&
      (state || cs.all fun c => !c.data.included)
    let plainFont := state && (cs.all fun c => !c.data.bolded)
    if changeState then
      let d1 := setIncludedData d state
      let d2 := if !plainFont && state then { d1 with font := Font.oblique, bolded := true }
                else d1
      (.node d2 cs, true)
    else
      let d2 := if !plainFont then { d with font := Font.oblique, bolded := true }
                else { d with font := Font.plain, bolded := false }
      (.node d2 cs, false)

/-- The body of `toggleLeaf` below the root: descend along the path, run
`include` at its end, and on the way back up apply `child_include` while
the child reported a state change (the `self.depth > 1` guards in
`include` and `child_include` stop the chain below the root).  The
returned flag tells the caller whether to keep propagating. -/
def toggleGo (t : FT) (p : List ℕ) (v : Bool) : FT × Bool :=
  match p, t with
  | [], t => (includeDown v t, true)
  | i :: rest, .node d cs =>
    match cs.get? i with
    | none => (.node d cs, false)
    | some c =>
      let r := toggleGo c rest v
      let cs2 := cs.set i r.1
      if r.2 then childIncludeNode (.node d cs2) v
      else (.node d cs2, false)

/-- Toggling the checkbox of the node at path `p` (`FileTree.include`,
lines 263-281): the root (depth 0) itself never runs `child_include`. -/
def toggleLeaf (t : FT) (p : List ℕ) (v : Bool) : FT :=
  match p, t with
  | [], t => includeDown v t
  | i :: rest, .node d cs =>
    match cs.get? i with
    | none => .node d cs
    | some c => .node d (cs.set i (toggleGo c rest v).1)

mutual

/-- Reachable-state invariant of the tree (holding after a build and
preserved by the user operations): a leaf is bold iff excluded; a
directory is included iff some child is, is bold iff excluded, and is
oblique exactly when included with some non-plain child. -/
def wfNode : FT → Bool
  | .node d [] =>
      (d.bolded == !d.included) &&
      (d.font == if d.included then Font.plain else Font.bold)
  | .node d (c0 :: cs) =>
      (d.included == (c0 :: cs).any fun c => c.data.included) &&
      (if d.included then
        (if (c0 :: cs).any (fun c => c.data.bolded) then
          (d.font == Font.oblique) && d.bolded
         else (d.font == Font.plain) && !d.bolded)
       else (d.font == Font.bold) && d.bolded) &&
      wfList (c0 :: cs)

def wfList : List FT → Bool
  | [] => true
  | c :: cs => wfNode c && wfList cs

end

/-- The path `p` leads to a leaf (childless node) whose `included` flag is
off. -/
def isExcludedLeaf : FT → List ℕ → Bool
  | .node d cs, [] => cs.isEmpty && !d.included
  | .node _ cs, i :: rest =>
    match cs.get? i with
    | some c => isExcludedLeaf c rest
    | none => false

mutual

/-- `FileTree.get_all_included_files` (lines 451-472): depth-first list of
the paths of the included, checkbox-enabled leaves; a node that is not
included or not enabled prunes its subtree.  The depth-0 root's checkbox
is never queried (it has none). -/
def getAllIncludedFiles : FT → ℕ → List String
  | .node d cs, depth =>
    let enabled := depth == 0 || d.enabled
    if !d.included || !enabled then []
    else match cs with
      | [] => [d.path]
      | c0 :: cs2 => getAllList (c0 :: cs2) (depth + 1)

def getAllList : List FT → ℕ → List String
  | [], _ => []
  | c :: cs, depth => getAllIncludedFiles c depth ++ getAllList cs depth

end

mutual

/-- All leaf (childless) node records of the tree, in traversal order. -/
def leavesData : FT → List NData
  | .node d [] => [d]
  | .node _ (c0 :: cs) => leavesList (c0 :: cs)

def leavesList : List FT → List NData
  | [] => []
  | c :: cs => leavesData c ++ leavesList cs

end

mutual

/-- `FileTree.prune_fbx` (lines 420-442): disable (mask) the checkboxes of
non-fbx leaves when `state` is on, re-enable them when it is off;
directories fold their children's results with `and` and are themselves
disabled when everything below is pruned.  Returns the updated node and
the `pruned` result. -/
def pruneFbx : FT → ℕ → Bool → FT × Bool
  | .node d [], _, state =>
    if !(d.name.endsWith ".fbx") then (.node { d with enabled := !state } [], state)
    else (.node d [], false)
  | .node d (c0 :: cs), depth, state =>
    let r := pruneList (c0 :: cs) (depth + 1) state state
    if 0 < depth then (.node { d with enabled := !r.2 } r.1, r.2)
    else (.node d r.1, r.2)

def pruneList : List FT → ℕ → Bool → Bool → List FT × Bool
  | [], _, _, acc => ([], acc)
  | c :: cs, depth, state, acc =>
    let r := pruneFbx c depth state
    let rs := pruneList cs depth state (r.2 && acc)
    (r.1 :: rs.1, rs.2)

end

/-! ## Selection tree: path-indexed access (for `add_filter_children`) -/

/-- The subtree at a path. -/
def getAt? : FT → List ℕ → Option FT
  | t, [] => some t
  | .node _ cs, i :: rest =>
    match cs.get? i with
    | some c => getAt? c rest
    | none => none

/-- Replace the subtree at a path (no-op on an invalid path). -/
def setAt : FT → List ℕ → FT → FT
  | _, [], x => x
  | .node d cs, i :: rest, x =>
    .node d (match cs.get? i with
      | some c => cs.set i (setAt c rest x)
      | none => cs)

/-- `p` is a prefix of `L`: the node at `L` lies in the subtree rooted at
the node at `p`. -/
def isUnder : List ℕ → List ℕ → Bool
  | [], _ => true
  | _ :: _, [] => false
  | i :: p2, j :: L2 => i == j && isUnder p2 L2

/-- The upward `child_include` chain started at the node at path `q`
(`self.__parent.child_include(state)` calls): apply `child_include`
there; while it reports a change and the node's depth exceeds 1, continue
at the parent. -/
def childIncludeUp (t : FT) (q : List ℕ) (v : Bool) : FT :=
  match getAt? t q with
  | none => t
  | some sub =>
    let r := childIncludeNode sub v
    let t2 := setAt t q r.1
    if h : r.2 = true ∧ 1 < q.length then childIncludeUp t2 q.dropLast v else t2
termination_by q.length
decreasing_by
  simp only [List.length_dropLast]
  omega

mutual

/-- `FileTree.add_filter_children` (lines 387-401) on the subtree at path
`p` of the whole tree `t`; the first argument is the original subtree,
used only as a structural guide (the operations never change the tree's
shape).  A childless node (`len(children) == 0`, the "Files" branch) that
is not filtered out is set included and its parent gets `child_include
(True)`; a directory recurses into its children in order and then, when
its depth exceeds 1, unconditionally calls `child_include(True)` on its
parent.  (In the source the root always has children: the tree built by
`_update_all_files` puts the scanned root directory at depth 1.) -/
def addFilterGo : FT → FT → List ℕ → FT
  | .node _ [], t, p =>
    (match getAt? t p with
    | some (.node d cs) =>
      if !d.filtered then
        childIncludeUp (setAt t p (.node (setIncludedData d true) cs)) p.dropLast true
      else t
    | none => t)
  | .node _ (g0 :: gs), t, p =>
    let t1 := addFilterList (g0 :: gs) 0 t p
    if 1 < p.length then childIncludeUp t1 p.dropLast true else t1

def addFilterList : List FT → ℕ → FT → List ℕ → FT
  | [], _, t, _ => t
  | g :: gs, idx, t, p => addFilterList gs (idx + 1) (addFilterGo g t (p ++ [idx])) p

end

/-- `add_filter_children` on the whole tree (the button handler calls it
on the root `FileTree`). -/
def addFilterMatches (t : FT) : FT := addFilterGo t t []

mutual

/-- The node data of a tree with every record replaced by a fixed one:
two trees have the same shape iff their `stripData` images coincide. -/
def stripData : FT → FT
  | .node _ cs => .node ⟨"", "", true, false, Font.plain, true, false⟩ (stripList cs)

def stripList : List FT → List FT
  | [] => []
  | c :: cs => stripData c :: stripList cs

end

/-- Specification of `add_filter_children` on the subtree at `p` (with a
same-shaped guide): the shape is preserved, and the record of every
childless node is set included exactly when it lies under `p` and is not
filtered out, all other childless records being left unchanged. -/
def addFilterSpec (g : FT) : Prop :=
  ∀ (t : FT) (p : List ℕ) (sub : FT), getAt? t p = some sub →
    stripData g = stripData sub →
    stripData (addFilterGo g t p) = stripData t ∧
    ∀ (L : List ℕ) (d : NData), getAt? t L = some (.node d []) →
      getAt? (addFilterGo g t p) L =
        some (.node (if isUnder p L && !d.filtered then setIncludedData d true else d) [])

/-! ## Concrete trees used in witnesses and counterexamples -/

/-- A freshly built two-node tree: the root with a single included leaf,
everything plain (the state right after `_update_all_files`). -/
def tFresh : FT :=
  .node ⟨"/src", "src", true, false, Font.plain, true, false⟩
    [.node ⟨"/src/a.fbx", "a.fbx", true, false, Font.plain, true, false⟩ []]

/-- A root with one excluded (bold) leaf and one included (plain) leaf;
the root is included and oblique. -/
def tMixed : FT :=
  .node ⟨"/src", "src", true, true, Font.oblique, true, false⟩
    [.node ⟨"/src/b.fbx", "b.fbx", false, true, Font.bold, true, false⟩ [],
     .node ⟨"/src/a.fbx", "a.fbx", true, false, Font.plain, true, false⟩ []]

/-- A root with an included enabled leaf and an included but masked
(checkbox-disabled) leaf. -/
def tMasked : FT :=
  .node ⟨"/src", "src", true, false, Font.plain, true, false⟩
    [.node ⟨"/src/a.fbx", "a.fbx", true, false, Font.plain, true, false⟩ [],
     .node ⟨"/src/c.txt", "c.txt", true, false, Font.plain, false, false⟩ []]

/-- An all-excluded chain `root / A / B / c.txt` whose only leaf is
filtered out by the text search. -/
def tFiltered : FT :=
  .node ⟨"/src", "src", false, true, Font.bold, true, false⟩
    [.node ⟨"/src/A", "A", false, true, Font.bold, true, false⟩
      [.node ⟨"/src/A/B", "B", false, true, Font.bold, true, false⟩
        [.node ⟨"/src/A/B/c.txt", "c.txt", false, true, Font.bold, true, true⟩ []]]]

/-- A root with one filtered-out excluded leaf and one unfiltered excluded
leaf. -/
def tFilterMix : FT :=
  .node ⟨"/src", "src", false, true, Font.bold, true, false⟩
    [.node ⟨"/src/b.fbx", "b.fbx", false, true, Font.bold, true, true⟩ [],
     .node ⟨"/src/a.fbx", "a.fbx", false, true, Font.bold, true, false⟩ []]

/-! ## Batch pipeline: `__write_file` and the copy branch -/

/-- The output files `__write_file` (lines 1230-1261) writes: one
`<path>_<object>.fbx` per object when each mesh gets its own file
(`own_fbx` and not `combine_meshes`), a single `<path>.fbx` otherwise. -/
def writeTargets (ownFbx combineMeshes : Bool) (fbx : List String) (path : String) :
    List String :=
  if ownFbx && !combineMeshes then fbx.map (fun f => path ++ "_" ++ f ++ ".fbx")
  else [path ++ ".fbx"]

/-- `__write_file` itself, with the file system modelled as the list of
paths that exist: before each export the target is checked, an overwrite
warning is counted when it already exists, and the export makes the
target exist.  Returns the warning count and the new file system. -/
def writeFile (ownFbx combineMeshes : Bool) (fbx : List String) (path : String)
    (fs : List String) : ℕ × List String :=
  if ownFbx && !combineMeshes then
    fbx.foldl (fun acc f =>
      let full := path ++ "_" ++ f ++ ".fbx"
      ((if full ∈ acc.2 then acc.1 + 1 else acc.1), full :: acc.2)) (0, fs)
  else
    let p := path ++ ".fbx"
    ((if p ∈ fs then 1 else 0), p :: fs)

/-- The non-fbx branch of `__run_processor` (lines 1133-1138): warn if the
destination exists, then `shutil.copy2` creates it. -/
def copyFileStep (path : String) (fs : List String) : ℕ × List String :=
  ((if path ∈ fs then 1 else 0), path :: fs)

/-- Helper: sequential writes of a target list over the file-system
state, counting the targets that already exist when written. -/
def writeGo : List String → List String → ℕ → ℕ × List String
  | [], fs, w => (w, fs)
  | t :: ts, fs, w => writeGo ts (t :: fs) (if t ∈ fs then w + 1 else w)

/-! # Theorems -/

theorem pyRound_intCast (n : ℤ) : pyRound (n : ℚ) = n := by
  simp [pyRound]

theorem pydiv_ne_zero (a b : ℚ) (hb : b ≠ 0) : pydiv a b = some (a / b) := by
  simp [pydiv, hb]

theorem axisStep_some (grid cur : Fin 3 → ℚ) (i : Fin 3)
    (hc : cur i ≠ 0) (hg : grid i ≠ 0) :
    axisStep grid cur i = some (scaleFormula grid cur i) := by
  simp [axisStep, scaleFormula, hc, hg]

theorem one_le_maxRound (q : ℚ) : (1 : ℚ) ≤ ((max (pyRound q) 1 : ℤ) : ℚ) := by
  have h : (1 : ℤ) ≤ max (pyRound q) 1 := le_max_right _ _
  exact_mod_cast h

theorem scaleFormula_ne_zero (grid cur : Fin 3 → ℚ) (i : Fin 3)
    (hc : cur i ≠ 0) (hg : grid i ≠ 0) :
    scaleFormula grid cur i ≠ 0 := by
  have hm : ((max (pyRound (cur i / grid i)) 1 : ℤ) : ℚ) ≠ 0 := by
    have := one_le_maxRound (cur i / grid i)
    intro h
    rw [h] at this
    norm_num at this
  exact mul_ne_zero (div_ne_zero hg hc) hm

/-- Full evaluation of `__adjust_dimensions`'s numeric loop for one object
when no division fails. -/
theorem computeScale_eq (cfg : ScaleConfig) (b : BBox) (grid : Fin 3 → ℚ)
    (hgrid : gridOf cfg (curDim b) = some grid)
    (h0 : ∀ i, curDim b i ≠ 0) (hg : ∀ i, grid i ≠ 0) :
    computeScale cfg b =
      some ⟨[scaleFormula grid (curDim b) 0, scaleFormula grid (curDim b) 1,
             scaleFormula grid (curDim b) 2],
            (gridWarn (scaleFormula grid (curDim b) 0) ||
              gridWarn (scaleFormula grid (curDim b) 1)) ||
              gridWarn (scaleFormula grid (curDim b) 2),
            (stretchWarn (scaleFormula grid (curDim b) 0 / scaleFormula grid (curDim b) 1) ||
              stretchWarn (scaleFormula grid (curDim b) 0 / scaleFormula grid (curDim b) 2)) ||
              stretchWarn (scaleFormula grid (curDim b) 1 / scaleFormula grid (curDim b) 2)⟩ := by
  have hs0 := axisStep_some grid (curDim b) 0 (h0 0) (hg 0)
  have hs1 := axisStep_some grid (curDim b) 1 (h0 1) (hg 1)
  have hs2 := axisStep_some grid (curDim b) 2 (h0 2) (hg 2)
  have hn1 := scaleFormula_ne_zero grid (curDim b) 1 (h0 1) (hg 1)
  have hn2 := scaleFormula_ne_zero grid (curDim b) 2 (h0 2) (hg 2)
  simp only [computeScale, Option.bind_eq_bind, hgrid, Option.some_bind, hs0, hs1, hs2,
    pydiv_ne_zero _ _ hn1, pydiv_ne_zero _ _ hn2]
  rfl

theorem gridOf_stretch (cfg : ScaleConfig) (cur : Fin 3 → ℚ)
    (h : cfg.allowStretching = true) :
    gridOf cfg cur = some (fun i => cfg.gridSpacing i) := by
  simp [gridOf, h]

theorem gridOf_noStretch (cfg : ScaleConfig) (cur : Fin 3 → ℚ)
    (h : cfg.allowStretching = false) (hm : cur cfg.mainAxis ≠ 0) :
    gridOf cfg cur = some (fun i => cur i / cur cfg.mainAxis * cfg.uniform) := by
  simp [gridOf, h, hm]

theorem fin3_cases (i : Fin 3) : i = 0 ∨ i = 1 ∨ i = 2 := by
  revert i
  decide

theorem computeScale_none_of_axis (cfg : ScaleConfig) (b : BBox) (grid : Fin 3 → ℚ)
    (hgrid : gridOf cfg (curDim b) = some grid) (i : Fin 3)
    (h : axisStep grid (curDim b) i = none) :
    computeScale cfg b = none := by
  rcases fin3_cases i with rfl | rfl | rfl
  · simp [computeScale, hgrid, h]
  · cases h0 : axisStep grid (curDim b) 0 <;>
      simp [computeScale, hgrid, h0, h]
  · cases h0 : axisStep grid (curDim b) 0 <;>
      simp only [computeScale, Option.bind_eq_bind, hgrid, Option.some_bind, h0,
        Option.none_bind]
    cases h1 : axisStep grid (curDim b) 1 <;>
      simp only [h1, Option.some_bind, Option.none_bind]
    cases hd : pydiv _ _ <;>
      simp [hd, h]

/-- **C1.** With strictly positive dimensions and a positive derived grid,
the scale factor on axis `i` is
`grid[i] * max(round(cur[i]/grid[i]), 1) / cur[i]`; and whenever every
dimension is an exact positive integer multiple of its grid value, the
scale vector is `[1,1,1]` and both warning flags are off. -/
theorem computeScale_grid_formula (cfg : ScaleConfig) (b : BBox) (grid : Fin 3 → ℚ)
    (hpos : ∀ i, 0 < curDim b i) (hgrid : gridOf cfg (curDim b) = some grid)
    (hgpos : ∀ i, 0 < grid i) :
    (∃ r, computeScale cfg b = some r ∧
        ∀ i : Fin 3, r.scale.getD i.1 0 =
          grid i * ((max (pyRound (curDim b i / grid i)) 1 : ℤ) : ℚ) / curDim b i) ∧
    ((∀ i : Fin 3, ∃ k : ℕ, 0 < k ∧ curDim b i = (k : ℚ) * grid i) →
      computeScale cfg b = some ⟨[1, 1, 1], false, false⟩) := by
  have h0 : ∀ i, curDim b i ≠ 0 := fun i => ne_of_gt (hpos i)
  have hg : ∀ i, grid i ≠ 0 := fun i => ne_of_gt (hgpos i)
  have heq := computeScale_eq cfg b grid hgrid h0 hg
  constructor
  · refine ⟨_, heq, ?_⟩
    intro i
    fin_cases i <;>
      simp [scaleFormula, div_mul_eq_mul_div]
  · intro hmul
    have hS : ∀ i : Fin 3, scaleFormula grid (curDim b) i = 1 := by
      intro i
      obtain ⟨k, hk, hcur⟩ := hmul i
      have hkQ : (k : ℚ) ≠ 0 := by
        have hk2 : (0 : ℚ) < (k : ℚ) := by exact_mod_cast hk
        exact ne_of_gt hk2
      have hdiv : curDim b i / grid i = (k : ℚ) := by
        rw [hcur, mul_div_assoc, div_self (hg i), mul_one]
      have hround : pyRound ((k : ℚ)) = (k : ℤ) := by
        have := pyRound_intCast (k : ℤ)
        simpa using this
      have hmax : max (pyRound ((k : ℚ))) 1 = (k : ℤ) := by
        rw [hround]
        exact max_eq_left (by exact_mod_cast hk)
      rw [scaleFormula, hdiv, hmax, hcur]
      rw [mul_comm ((k : ℚ)) (grid i)]
      push_cast
      rw [div_mul_eq_mul_div, div_eq_one_iff_eq (mul_ne_zero (hg i) hkQ)]
    rw [heq]
    rw [hS 0, hS 1, hS 2]
    norm_num [gridWarn, stretchWarn]

/-- **C2 (amended).**  `__adjust_dimensions` aborts (a `ZeroDivisionError`,
modelled by `none`) exactly when some bounding-box dimension equals `0`;
dimensions that are merely negative are not rejected.  The configured grid
values are assumed non-zero (the UI clamps the text fields to `≥ 0.01`). -/
theorem computeScale_none_iff (cfg : ScaleConfig) (b : BBox)
    (hstretch : cfg.allowStretching = true → ∀ i, cfg.gridSpacing i ≠ 0)
    (hnostretch : cfg.allowStretching = false → cfg.uniform ≠ 0) :
    computeScale cfg b = none ↔ ∃ i, curDim b i = 0 := by
  constructor
  · intro hnone
    by_contra hno
    push_neg at hno
    cases hst : cfg.allowStretching with
    | true =>
      have heq := computeScale_eq cfg b (fun i => cfg.gridSpacing i)
        (gridOf_stretch cfg (curDim b) hst) hno (hstretch hst)
      rw [heq] at hnone
      exact Option.some_ne_none _ hnone
    | false =>
      have hm : curDim b cfg.mainAxis ≠ 0 := hno _
      have hg : ∀ i, (fun i => curDim b i / curDim b cfg.mainAxis * cfg.uniform) i ≠ 0 :=
        fun i => mul_ne_zero (div_ne_zero (hno i) hm) (hnostretch hst)
      have heq := computeScale_eq cfg b _ (gridOf_noStretch cfg (curDim b) hst hm) hno hg
      rw [heq] at hnone
      exact Option.some_ne_none _ hnone
  · rintro ⟨i, hi⟩
    cases hst : cfg.allowStretching with
    | true =>
      refine computeScale_none_of_axis cfg b _ (gridOf_stretch cfg (curDim b) hst) i ?_
      simp [axisStep, hi]
    | false =>
      by_cases hm : curDim b cfg.mainAxis = 0
      · simp [computeScale, gridOf, hst, hm]
      · refine computeScale_none_of_axis cfg b _ (gridOf_noStretch cfg (curDim b) hst hm) i ?_
        simp [axisStep, hi]

/-- **C2 counterexample.**  A bounding box with a (negative) dimension
`≤ 0` on which `computeScale` does *not* fail: it returns scale factors,
contradicting the claim that any dimension `≤ 0` aborts with an error. -/
theorem computeScale_nonpositive_dim_succeeds :
    curDim bC2 0 ≤ 0 ∧ (computeScale cfgC2 bC2).isSome = true := by
  have hdim : curDim bC2 0 = -1 := by
    simp [curDim, bC2]
  constructor
  · rw [hdim]; norm_num
  · have h0 : ∀ i, curDim bC2 i ≠ 0 := by
      intro i
      fin_cases i <;> simp [curDim, bC2]
    have heq := computeScale_eq cfgC2 bC2 (fun _ => 1) rfl h0 (fun i => one_ne_zero)
    rw [heq]
    rfl

/-- **C5.**  The target grid: `grid[i] = self.scale[i]` when stretching is
allowed, and
`grid[i] = cur_dimensions[i] / cur_dimensions[main_axis] * self.scale[3]`
when it is not (for positive dimensions). -/
theorem gridOf_modes (cfg : ScaleConfig) (b : BBox) :
    (cfg.allowStretching = true → gridOf cfg (curDim b) = some (fun i => cfg.gridSpacing i)) ∧
    (cfg.allowStretching = false → (∀ i, 0 < curDim b i) →
      gridOf cfg (curDim b) =
        some (fun i => curDim b i / curDim b cfg.mainAxis * cfg.uniform)) := by
  constructor
  · intro h
    exact gridOf_stretch cfg (curDim b) h
  · intro h hpos
    exact gridOf_noStretch cfg (curDim b) h (ne_of_gt (hpos cfg.mainAxis))

/-- **C10.**  In no-stretch mode all three scale factors coincide (each is
`uniform / cur[main] * max(round(cur[main]/uniform), 1)`), so the stretch
warning can never fire. -/
theorem computeScale_noStretch_equal (cfg : ScaleConfig) (b : BBox)
    (hs : cfg.allowStretching = false)
    (hpos : ∀ i, 0 < curDim b i) (hu : 0 < cfg.uniform) :
    ∃ c : ℚ, computeScale cfg b = some ⟨[c, c, c], gridWarn c, false⟩ := by
  set cur := curDim b with hcur
  set m := cfg.mainAxis
  have hm : cur m ≠ 0 := ne_of_gt (hpos m)
  have hun : cfg.uniform ≠ 0 := ne_of_gt hu
  set grid : Fin 3 → ℚ := fun i => cur i / cur m * cfg.uniform with hgrid
  have hg : ∀ i, grid i ≠ 0 := fun i => mul_ne_zero (div_ne_zero (ne_of_gt (hpos i)) hm) hun
  have h0 : ∀ i, cur i ≠ 0 := fun i => ne_of_gt (hpos i)
  set c : ℚ := cfg.uniform / cur m * ((max (pyRound (cur m / cfg.uniform)) 1 : ℤ) : ℚ) with hc
  have hSc : ∀ i, scaleFormula grid cur i = c := by
    intro i
    have h1 : grid i / cur i = cfg.uniform / cur m := by
      simp only [hgrid]
      rw [div_mul_eq_mul_div, div_div, mul_comm (cur m) (cur i),
        mul_div_mul_left _ _ (h0 i)]
    have h2 : cur i / grid i = cur m / cfg.uniform := by
      simp only [hgrid]
      rw [div_mul_eq_mul_div, div_div_eq_mul_div, mul_div_mul_left _ _ (h0 i)]
    rw [scaleFormula, h1, h2]
  have hcne : c ≠ 0 := by
    have hle := one_le_maxRound (cur m / cfg.uniform)
    have : ((max (pyRound (cur m / cfg.uniform)) 1 : ℤ) : ℚ) ≠ 0 := by
      intro hz
      rw [hz] at hle
      norm_num at hle
    exact mul_ne_zero (div_ne_zero hun hm) this
  have heq := computeScale_eq cfg b grid (gridOf_noStretch cfg cur hs hm) h0 hg
  refine ⟨c, ?_⟩
  rw [heq, hSc 0, hSc 1, hSc 2]
  have hdiv : c / c = 1 := div_self hcne
  rw [hdiv]
  norm_num [stretchWarn]

theorem gridWarn_iff (s : ℚ) : gridWarn s = true ↔ ¬(0.55 < s ∧ s < 1.45) := by
  by_cases h1 : (0.55 : ℚ) < s <;> by_cases h2 : s < (1.45 : ℚ) <;>
    simp [gridWarn, h1, h2]

theorem stretchWarn_iff (st : ℚ) : stretchWarn st = true ↔ ¬(0.85 < st ∧ st < 1.15) := by
  by_cases h1 : (0.85 : ℚ) < st <;> by_cases h2 : st < (1.15 : ℚ) <;>
    simp [stretchWarn, h1, h2]

theorem pydiv_some (a b v : ℚ) (h : pydiv a b = some v) : v = a / b := by
  by_cases hb : b = 0 <;> simp [pydiv, hb] at h
  exact h.symm

/-- Inversion: a successful `computeScale` run is of the shape produced by
the three-axis loop. -/
theorem computeScale_some_inv (cfg : ScaleConfig) (b : BBox) (r : ScaleResult)
    (h : computeScale cfg b = some r) :
    ∃ s0 s1 s2 : ℚ,
      r.scale = [s0, s1, s2] ∧
      r.warnGrid = ((gridWarn s0 || gridWarn s1) || gridWarn s2) ∧
      r.warnStretch = ((stretchWarn (s0 / s1) || stretchWarn (s0 / s2)) ||
        stretchWarn (s1 / s2)) := by
  cases hg : gridOf cfg (curDim b) with
  | none => simp [computeScale, hg] at h
  | some grid =>
  cases h0 : axisStep grid (curDim b) 0 with
  | none => simp [computeScale, hg, h0] at h
  | some s0 =>
  cases h1 : axisStep grid (curDim b) 1 with
  | none => simp [computeScale, hg, h0, h1] at h
  | some s1 =>
  cases hd01 : pydiv s0 s1 with
  | none => simp [computeScale, hg, h0, h1, hd01] at h
  | some st01 =>
  cases h2 : axisStep grid (curDim b) 2 with
  | none => simp [computeScale, hg, h0, h1, hd01, h2] at h
  | some s2 =>
  cases hd02 : pydiv s0 s2 with
  | none => simp [computeScale, hg, h0, h1, hd01, h2, hd02] at h
  | some st02 =>
  cases hd12 : pydiv s1 s2 with
  | none => simp [computeScale, hg, h0, h1, hd01, h2, hd02, hd12] at h
  | some st12 =>
  simp only [computeScale, Option.bind_eq_bind, hg, Option.some_bind, h0, h1, hd01, h2,
    hd02, hd12, Option.pure_def, Option.some.injEq] at h
  rw [pydiv_some _ _ _ hd01, pydiv_some _ _ _ hd02, pydiv_some _ _ _ hd12] at h
  exact ⟨s0, s1, s2, by rw [← h], by rw [← h], by rw [← h]⟩

/-- **C3.**  For a successful run, the grid-deviation flag is set iff some
axis scale factor leaves `(0.55, 1.45)`, the stretch flag is set iff some
pair `(i, j)`, `j < i`, has `scale[j]/scale[i]` outside `(0.85, 1.15)`,
and each kind of warning appears in the logged list at most once, so the
list has `0`, `1` or `2` entries. -/
theorem computeScale_warning_spec (cfg : ScaleConfig) (b : BBox) (r : ScaleResult)
    (h : computeScale cfg b = some r) :
    (r.warnGrid = true ↔
      ∃ i : Fin 3, ¬(0.55 < r.scale.getD i.1 0 ∧ r.scale.getD i.1 0 < 1.45)) ∧
    (r.warnStretch = true ↔
      ∃ i j : Fin 3, j < i ∧
        ¬(0.85 < r.scale.getD j.1 0 / r.scale.getD i.1 0 ∧
          r.scale.getD j.1 0 / r.scale.getD i.1 0 < 1.15)) ∧
    (warningList r).count WarnKind.grid = (if r.warnGrid then 1 else 0) ∧
    (warningList r).count WarnKind.stretch = (if r.warnStretch then 1 else 0) ∧
    (warningList r).length ≤ 2 := by
  obtain ⟨s0, s1, s2, hsc, hwg, hws⟩ := computeScale_some_inv cfg b r h
  refine ⟨?_, ?_, ?_, ?_, ?_⟩
  · rw [hwg, hsc]
    simp only [Bool.or_eq_true, gridWarn_iff]
    constructor
    · rintro ((h | h) | h)
      · exact ⟨0, h⟩
      · exact ⟨1, h⟩
      · exact ⟨2, h⟩
    · rintro ⟨i, hi⟩
      rcases fin3_cases i with rfl | rfl | rfl
      · exact Or.inl (Or.inl hi)
      · exact Or.inl (Or.inr hi)
      · exact Or.inr hi
  · rw [hws, hsc]
    simp only [Bool.or_eq_true, stretchWarn_iff]
    constructor
    · rintro ((h | h) | h)
      · exact ⟨1, 0, by decide, h⟩
      · exact ⟨2, 0, by decide, h⟩
      · exact ⟨2, 1, by decide, h⟩
    · rintro ⟨i, j, hlt, hij⟩
      rcases fin3_cases i with rfl | rfl | rfl <;>
        rcases fin3_cases j with rfl | rfl | rfl <;>
          first
            | exact absurd hlt (by decide)
            | exact Or.inl (Or.inl hij)
            | exact Or.inl (Or.inr hij)
            | exact Or.inr hij
  · cases hg : r.warnGrid <;> cases hs : r.warnStretch <;>
      simp [warningList, hg, hs]
  · cases hg : r.warnGrid <;> cases hs : r.warnStretch <;>
      simp [warningList, hg, hs]
  · cases hg : r.warnGrid <;> cases hs : r.warnStretch <;>
      simp [warningList, hg, hs]

/-- **C4.**  The new pivot per axis: the bounding-box minimum for
placement `0` (Min), the midpoint for `1` (Middle), the maximum for `2`
(Max). -/
theorem computePivot_spec (placement : Fin 3 → ℕ) (b : BBox)
    (hp : ∀ i, placement i ≤ 2) :
    ∀ i, computePivot placement b i =
      if placement i = 0 then b.bmin i
      else if placement i = 1 then (b.bmin i + b.bmax i) / 2
      else b.bmax i := by
  intro i
  have hi3 : i.1 < 3 := i.isLt
  have hmin : bboxArr b i.1 = b.bmin i := by
    simp [bboxArr, hi3]
  have hmax : bboxArr b (3 + i.1) = b.bmax i := by
    have hn3 : ¬(3 + i.1 < 3) := by omega
    have hn6 : 3 + i.1 < 6 := by omega
    rw [bboxArr, dif_neg hn3, dif_pos hn6]
    congr 1
    rw [Fin.ext_iff]
    show 3 + i.1 - 3 = i.1
    omega
  have hpi := hp i
  by_cases h0 : placement i = 0
  · simp only [computePivot, h0]
    norm_num
    exact hmin
  · by_cases h1 : placement i = 1
    · simp only [computePivot, h1]
      norm_num
      rw [hmin, show i.1 + 3 = 3 + i.1 by omega, hmax]
    · have h2 : placement i = 2 := by omega
      simp only [computePivot, h2]
      norm_num
      exact hmax

theorem bUnit_dim_pos : ∀ i, 0 < curDim bUnit i := by
  intro i
  simp [curDim, bUnit]

theorem c1_witness : computeScale cfgUnit bUnit = some ⟨[1, 1, 1], false, false⟩ :=
  (computeScale_grid_formula cfgUnit bUnit (fun _ => 1) bUnit_dim_pos rfl
      (fun _ => zero_lt_one)).2
    (fun i => ⟨1, one_pos, by simp [curDim, bUnit]⟩)

theorem c2_witness :
    computeScale cfgUnit bUnit = none ↔ ∃ i, curDim bUnit i = 0 :=
  computeScale_none_iff cfgUnit bUnit (fun _ _ => one_ne_zero)
    (fun h => by simp [cfgUnit] at h)

theorem c3_witness :
    ∃ r, computeScale cfgUnit bUnit = some r ∧ (warningList r).length ≤ 2 := by
  have h0 : ∀ i, curDim bUnit i ≠ 0 := fun i => ne_of_gt (bUnit_dim_pos i)
  have h := computeScale_eq cfgUnit bUnit (fun _ => 1) rfl h0 (fun _ => one_ne_zero)
  exact ⟨_, h, (computeScale_warning_spec cfgUnit bUnit _ h).2.2.2.2⟩

theorem half_of_added_four : ((0 : ℚ) + 4) / 2 = 2 := by norm_num

theorem c4_witness :
    computePivot ![0, 1, 2] bPivot 0 = 0 ∧
    computePivot ![0, 1, 2] bPivot 1 = 2 ∧
    computePivot ![0, 1, 2] bPivot 2 = 6 := by
  have h := computePivot_spec ![0, 1, 2] bPivot (by intro i; fin_cases i <;> simp)
  refine ⟨?_, ?_, ?_⟩
  · rw [h 0]
    simp [bPivot]
  · rw [h 1]
    simp only [Matrix.cons_val_one, Matrix.head_cons]
    rw [if_neg (by simp), if_pos trivial]
    show ((0 : ℚ) + 4) / 2 = 2
    exact half_of_added_four
  · rw [h 2]
    simp [bPivot]

theorem c5_witness :
    gridOf cfgNoStretch (curDim bUnit) =
      some (fun i => curDim bUnit i / curDim bUnit cfgNoStretch.mainAxis *
        cfgNoStretch.uniform) :=
  (gridOf_modes cfgNoStretch bUnit).2 rfl bUnit_dim_pos

theorem c10_witness :
    ∃ c : ℚ, computeScale cfgNoStretch bUnit = some ⟨[c, c, c], gridWarn c, false⟩ :=
  computeScale_noStretch_equal cfgNoStretch bUnit rfl bUnit_dim_pos zero_lt_one

/-! ## Selection tree: toggle round-trip (C7) -/

theorem set_get?_self {α : Type} (l : List α) (i : ℕ) (c : α) (h : l.get? i = some c) :
    l.set i c = l := by
  induction l generalizing i with
  | nil => simp at h
  | cons a as ih =>
    cases i with
    | zero =>
      simp only [List.get?] at h
      cases h
      rfl
    | succ n =>
      simp only [List.get?] at h
      simp [List.set, ih n h]

theorem wfNode_children {d : NData} {cs : List FT}
    (h : wfNode (.node d cs) = true) : wfList cs = true := by
  cases cs with
  | nil => rfl
  | cons c0 cs2 =>
    simp only [wfNode, Bool.and_eq_true] at h
    exact h.2

theorem wfList_mem {cs : List FT} (h : wfList cs = true) {c : FT} (hc : c ∈ cs) :
    wfNode c = true := by
  induction cs with
  | nil => cases hc
  | cons a as ih =>
    simp only [wfList, Bool.and_eq_true] at h
    rcases List.mem_cons.mp hc with rfl | hc2
    · exact h.1
    · exact ih h.2 hc2

theorem excluded_bolded {t : FT} (hwf : wfNode t = true)
    (hinc : t.data.included = false) : t.data.bolded = true := by
  obtain ⟨d, cs⟩ := t
  simp only [FT.data] at hinc ⊢
  cases cs with
  | nil =>
    simp only [wfNode, Bool.and_eq_true, beq_iff_eq] at hwf
    rw [hwf.1, hinc]
    rfl
  | cons c0 cs2 =>
    simp only [wfNode, hinc, Bool.and_eq_true, beq_iff_eq, if_false,
      Bool.ite_eq_true_distrib] at hwf
    exact hwf.1.2.2

theorem wf_dir_any {d : NData} {c0 : FT} {cs : List FT}
    (h : wfNode (.node d (c0 :: cs)) = true) :
    d.included = (c0 :: cs).any (fun c => c.data.included) := by
  simp only [wfNode, Bool.and_eq_true, beq_iff_eq] at h
  exact h.1.1

theorem wf_dir_excluded_font {d : NData} {c0 : FT} {cs : List FT}
    (h : wfNode (.node d (c0 :: cs)) = true) (hinc : d.included = false) :
    d.font = Font.bold ∧ d.bolded = true := by
  simp only [wfNode, hinc, Bool.and_eq_true, beq_iff_eq, Bool.false_eq_true,
    if_false] at h
  exact ⟨h.1.2.1, h.1.2.2⟩

theorem wf_dir_included_oblique {d : NData} {c0 : FT} {cs : List FT}
    (h : wfNode (.node d (c0 :: cs)) = true) (hinc : d.included = true)
    (hb : (c0 :: cs).any (fun c => c.data.bolded) = true) :
    d.font = Font.oblique ∧ d.bolded = true := by
  simp only [wfNode, hinc, hb, Bool.and_eq_true, beq_iff_eq, if_true] at h
  exact ⟨h.1.2.1, h.1.2.2⟩

/-- Node-level round trip for an originally excluded (bold) directory:
`child_include(True)` makes it included, `child_include(False)` on the
restored children makes it excluded and bold again. -/
theorem childIncludeNode_unexclude_exclude (d : NData) (cs1 cs : List FT)
    (hdinc : d.included = false) (hfont : d.font = Font.bold) (hbold : d.bolded = true)
    (hall : (cs.all fun c => !c.data.included) = true) :
    childIncludeNode (.node ((childIncludeNode (.node d cs1) true).1.data) cs) false =
      (.node d cs, true) ∧
    (childIncludeNode (.node d cs1) true).2 = true := by
  obtain ⟨pa, na, inc, bo, fo, en, fi⟩ := d
  simp only at hdinc hfont hbold
  subst hdinc hfont hbold
  have h2 : ∀ d2 : NData, d2.included = true →
      childIncludeNode (.node d2 cs) false =
        (.node { d2 with included := false, bolded := true, font := Font.bold } cs,
         true) := by
    intro d2 hd2
    simp [childIncludeNode, setIncludedData, hd2, hall]
  cases hpf : (cs1.all fun c => !c.data.bolded) with
  | true =>
    have h1 : childIncludeNode (.node ⟨pa, na, false, true, Font.bold, en, fi⟩ cs1)
        true = (.node ⟨pa, na, true, false, Font.plain, en, fi⟩ cs1, true) := by
      simp [childIncludeNode, setIncludedData, hpf]
    rw [h1]
    exact ⟨h2 _ rfl, rfl⟩
  | false =>
    have h1 : childIncludeNode (.node ⟨pa, na, false, true, Font.bold, en, fi⟩ cs1)
        true = (.node ⟨pa, na, true, true, Font.oblique, en, fi⟩ cs1, true) := by
      simp [childIncludeNode, setIncludedData, hpf]
    rw [h1]
    exact ⟨h2 _ rfl, rfl⟩

/-- Node-level round trip for an originally included, oblique directory
that keeps another included child: `child_include(True)` only refreshes
the font, `child_include(False)` puts it back to oblique. -/
theorem childIncludeNode_refresh_exclude (d : NData) (cs1 cs : List FT)
    (hdinc : d.included = true) (hfont : d.font = Font.oblique) (hbold : d.bolded = true)
    (hany : (cs.all fun c => !c.data.included) = false) :
    childIncludeNode (.node ((childIncludeNode (.node d cs1) true).1.data) cs) false =
      (.node d cs, false) ∧
    (childIncludeNode (.node d cs1) true).2 = false := by
  obtain ⟨pa, na, inc, bo, fo, en, fi⟩ := d
  simp only at hdinc hfont hbold
  subst hdinc hfont hbold
  have h2 : ∀ d2 : NData, d2.included = true →
      childIncludeNode (.node d2 cs) false =
        (.node { d2 with font := Font.oblique, bolded := true } cs, false) := by
    intro d2 hd2
    simp [childIncludeNode, setIncludedData, hd2, hany]
  cases hpf : (cs1.all fun c => !c.data.bolded) with
  | true =>
    have h1 : childIncludeNode (.node ⟨pa, na, true, true, Font.oblique, en, fi⟩ cs1)
        true = (.node ⟨pa, na, true, false, Font.plain, en, fi⟩ cs1, false) := by
      simp [childIncludeNode, setIncludedData, hpf]
    rw [h1]
    exact ⟨h2 _ rfl, rfl⟩
  | false =>
    have h1 : childIncludeNode (.node ⟨pa, na, true, true, Font.oblique, en, fi⟩ cs1)
        true = (.node ⟨pa, na, true, true, Font.oblique, en, fi⟩ cs1, false) := by
      simp [childIncludeNode, setIncludedData, hpf]
    rw [h1]
    exact ⟨h2 _ rfl, rfl⟩

/-- `child_include` never changes the children list. -/
theorem childIncludeNode_fst (d : NData) (cs : List FT) (v : Bool) :
    (childIncludeNode (.node d cs) v).1 =
      .node ((childIncludeNode (.node d cs) v).1.data) cs := by
  simp only [childIncludeNode]
  split <;> rfl

theorem wf_dir_any' {d : NData} {cs : List FT}
    (h : wfNode (.node d cs) = true) (hne : cs ≠ []) :
    d.included = cs.any (fun c => c.data.included) := by
  cases cs with
  | nil => exact absurd rfl hne
  | cons c0 cs2 => exact wf_dir_any h

theorem wf_dir_excluded_font' {d : NData} {cs : List FT}
    (h : wfNode (.node d cs) = true) (hne : cs ≠ []) (hinc : d.included = false) :
    d.font = Font.bold ∧ d.bolded = true := by
  cases cs with
  | nil => exact absurd rfl hne
  | cons c0 cs2 => exact wf_dir_excluded_font h hinc

theorem wf_dir_included_oblique' {d : NData} {cs : List FT}
    (h : wfNode (.node d cs) = true) (hne : cs ≠ []) (hinc : d.included = true)
    (hb : cs.any (fun c => c.data.bolded) = true) :
    d.font = Font.oblique ∧ d.bolded = true := by
  cases cs with
  | nil => exact absurd rfl hne
  | cons c0 cs2 => exact wf_dir_included_oblique h hinc hb

theorem toggleGo_roundTrip (p : List ℕ) : ∀ (t : FT),
    wfNode t = true → isExcludedLeaf t p = true →
    toggleGo ((toggleGo t p true).1) p false = (t, (toggleGo t p true).2) ∧
    (toggleGo t p true).2 = !t.data.included := by
  induction p with
  | nil =>
    intro t hwf hexc
    obtain ⟨d, cs⟩ := t
    simp only [isExcludedLeaf, Bool.and_eq_true, List.isEmpty_iff,
      Bool.not_eq_true'] at hexc
    obtain ⟨hcs, hinc⟩ := hexc
    subst hcs
    obtain ⟨pa, na, inc, bo, fo, en, fi⟩ := d
    simp only at hinc
    subst hinc
    simp only [wfNode, Bool.and_eq_true, beq_iff_eq, Bool.not_false, Bool.false_eq_true,
      if_false] at hwf
    obtain ⟨hbo, hfo⟩ := hwf
    subst hbo hfo
    refine ⟨?_, ?_⟩
    · simp [toggleGo, includeDown, includeDownList, setIncludedData]
    · simp [toggleGo, FT.data]
  | cons i rest ih =>
    intro t hwf hexc
    obtain ⟨d, cs⟩ := t
    simp only [isExcludedLeaf, FT.children] at hexc
    cases hget : cs.get? i with
    | none => rw [hget] at hexc; cases hexc
    | some c =>
    rw [hget] at hexc
    have hci : i < cs.length := (List.get?_eq_some.mp hget).1
    have hcmem : c ∈ cs := List.get?_mem hget
    have hwfc : wfNode c = true := wfList_mem (wfNode_children hwf) hcmem
    obtain ⟨ihEq, ihB⟩ := ih c hwfc hexc
    have hcsne : cs ≠ [] := by
      intro hnil
      rw [hnil] at hget
      cases hget
    have hget2 : (cs.set i (toggleGo c rest true).1).get? i =
        some (toggleGo c rest true).1 :=
      List.get?_set_eq_of_lt _ hci
    have hrestore : (cs.set i (toggleGo c rest true).1).set i c = cs := by
      rw [List.set_set]
      exact set_get?_self cs i c hget
    have hgetE : cs[i]? = some c := by
      rw [← List.get?_eq_getElem?]
      exact hget
    have hget2E : (cs.set i (toggleGo c rest true).1)[i]? =
        some (toggleGo c rest true).1 := by
      rw [← List.get?_eq_getElem?]
      exact hget2
    cases hinc : c.data.included with
    | true =>
      have hb1 : (toggleGo c rest true).2 = false := by rw [ihB, hinc]; rfl
      have hdinc : d.included = true := by
        rw [wf_dir_any' hwf hcsne]
        exact List.any_eq_true.mpr ⟨c, hcmem, hinc⟩
      have hphase1 : toggleGo (.node d cs) (i :: rest) true =
          (.node d (cs.set i (toggleGo c rest true).1), false) := by
        simp [toggleGo, hget, hgetE, hb1]
      refine ⟨?_, ?_⟩
      · rw [hphase1]
        simp only [toggleGo, hget2, hget2E, ihEq, hb1]
        simp [hrestore]
      · rw [hphase1, FT.data, hdinc]
        rfl
    | false =>
      have hb1 : (toggleGo c rest true).2 = true := by rw [ihB, hinc]; rfl
      have hcb : c.data.bolded = true := excluded_bolded hwfc hinc
      have hphase1 : toggleGo (.node d cs) (i :: rest) true =
          childIncludeNode (.node d (cs.set i (toggleGo c rest true).1)) true := by
        simp [toggleGo, hget, hgetE, hb1]
      cases hdinc : d.included with
      | false =>
        have hfonts := wf_dir_excluded_font' hwf hcsne hdinc
        have hall : (cs.all fun c => !c.data.included) = true := by
          have hany : (cs.any fun c => c.data.included) = false := by
            rw [← wf_dir_any' hwf hcsne]
            exact hdinc
          rw [List.all_eq_true]
          intro x hx
          rcases hax : x.data.included with _ | _
          · rfl
          · exact absurd (List.any_eq_true.mpr ⟨x, hx, hax⟩) (by rw [hany]; simp)
        obtain ⟨hmain, hsnd⟩ := childIncludeNode_unexclude_exclude d
          (cs.set i (toggleGo c rest true).1) cs hdinc hfonts.1 hfonts.2 hall
        have hphase1v : toggleGo (.node d cs) (i :: rest) true =
            ((childIncludeNode (.node d (cs.set i (toggleGo c rest true).1)) true).1,
             true) := by
          refine Prod.ext_iff.mpr ⟨?_, ?_⟩
          · rw [hphase1]
          · rw [hphase1]
            exact hsnd
        refine ⟨?_, ?_⟩
        · rw [hphase1v]
          show toggleGo
            ((childIncludeNode (.node d (cs.set i (toggleGo c rest true).1)) true).1)
            (i :: rest) false = _
          rw [childIncludeNode_fst]
          simp only [toggleGo, hget2, hget2E, ihEq, hb1]
          simp only [if_true]
          rw [hrestore]
          exact hmain
        · rw [hphase1v, FT.data, hdinc]
          rfl
      | true =>
        have hbany : cs.any (fun c => c.data.bolded) = true :=
          List.any_eq_true.mpr ⟨c, hcmem, hcb⟩
        have hfonts := wf_dir_included_oblique' hwf hcsne hdinc hbany
        have hany : (cs.all fun c => !c.data.included) = false := by
          have : (cs.any fun c => c.data.included) = true := by
            rw [← wf_dir_any' hwf hcsne]
            exact hdinc
          obtain ⟨x, hx, hxi⟩ := List.any_eq_true.mp this
          exact List.all_eq_false.mpr ⟨x, hx, by simp [hxi]⟩
        obtain ⟨hmain, hsnd⟩ := childIncludeNode_refresh_exclude d
          (cs.set i (toggleGo c rest true).1) cs hdinc hfonts.1 hfonts.2 hany
        have hphase1v : toggleGo (.node d cs) (i :: rest) true =
            ((childIncludeNode (.node d (cs.set i (toggleGo c rest true).1)) true).1,
             false) := by
          refine Prod.ext_iff.mpr ⟨?_, ?_⟩
          · rw [hphase1]
          · rw [hphase1]
            exact hsnd
        refine ⟨?_, ?_⟩
        · rw [hphase1v]
          show toggleGo
            ((childIncludeNode (.node d (cs.set i (toggleGo c rest true).1)) true).1)
            (i :: rest) false = _
          rw [childIncludeNode_fst]
          simp only [toggleGo, hget2, hget2E, ihEq, hb1]
          simp only [if_true]
          rw [hrestore]
          exact hmain
        · rw [hphase1v, FT.data, hdinc]
          rfl

/-- **C7 (amended).**  For a well-formed tree and a leaf that is
*excluded* before the calls, `toggleLeaf(leaf, true)` followed by
`toggleLeaf(leaf, false)` restores `included`, `bolded` and the font of
every node.  (For an initially included leaf the round trip does not
hold: see the counterexample.) -/
theorem toggleLeaf_roundTrip (t : FT) (p : List ℕ)
    (hwf : wfNode t = true) (hexc : isExcludedLeaf t p = true) :
    toggleLeaf (toggleLeaf t p true) p false = t := by
  cases p with
  | nil =>
    obtain ⟨d, cs⟩ := t
    simp only [isExcludedLeaf, Bool.and_eq_true, List.isEmpty_iff,
      Bool.not_eq_true'] at hexc
    obtain ⟨hcs, hinc⟩ := hexc
    subst hcs
    obtain ⟨pa, na, inc, bo, fo, en, fi⟩ := d
    simp only at hinc
    subst hinc
    simp only [wfNode, Bool.and_eq_true, beq_iff_eq, Bool.not_false, Bool.false_eq_true,
      if_false] at hwf
    obtain ⟨hbo, hfo⟩ := hwf
    subst hbo hfo
    simp [toggleLeaf, includeDown, includeDownList, setIncludedData]
  | cons i rest =>
    obtain ⟨d, cs⟩ := t
    simp only [isExcludedLeaf, FT.children] at hexc
    cases hget : cs.get? i with
    | none => rw [hget] at hexc; cases hexc
    | some c =>
    rw [hget] at hexc
    have hci : i < cs.length := (List.get?_eq_some.mp hget).1
    have hcmem : c ∈ cs := List.get?_mem hget
    have hwfc : wfNode c = true := wfList_mem (wfNode_children hwf) hcmem
    obtain ⟨ihEq, _⟩ := toggleGo_roundTrip rest c hwfc hexc
    have hget2 : (cs.set i (toggleGo c rest true).1).get? i =
        some (toggleGo c rest true).1 :=
      List.get?_set_eq_of_lt _ hci
    have hrestore : (cs.set i (toggleGo c rest true).1).set i c = cs := by
      rw [List.set_set]
      exact set_get?_self cs i c hget
    have hgetE : cs[i]? = some c := by
      rw [← List.get?_eq_getElem?]
      exact hget
    have hget2E : (cs.set i (toggleGo c rest true).1)[i]? =
        some (toggleGo c rest true).1 := by
      rw [← List.get?_eq_getElem?]
      exact hget2
    simp only [toggleLeaf, hget, hgetE, hget2, hget2E, ihEq]
    rw [hrestore]

/-- **C7 counterexample.**  On a freshly built (well-formed) tree whose
leaf is *included*, toggling the leaf on and then off does not restore the
state: the leaf ends excluded. -/
theorem toggleLeaf_no_roundTrip_included :
    (getAt? tFresh [0]).map (fun s => s.data.included) = some true ∧
    (getAt? (toggleLeaf (toggleLeaf tFresh [0] true) [0] false) [0]).map
      (fun s => s.data.included) = some false := by
  constructor
  · decide
  · decide

theorem toggleLeaf_roundTrip_witness :
    toggleLeaf (toggleLeaf tMixed [0] true) [0] false = tMixed :=
  toggleLeaf_roundTrip tMixed [0] (by decide) (by decide)

/-! ## Selection tree: flattening never emits masked leaves (C6) -/

theorem FT.myInduction (motive : FT → Prop)
    (h : ∀ d cs, (∀ c ∈ cs, motive c) → motive (.node d cs)) : ∀ t, motive t
  | .node d cs => h d cs (fun c hc => FT.myInduction motive h c)
termination_by t => sizeOf t
decreasing_by
  have := List.sizeOf_lt_of_mem hc
  simp_wf
  omega

theorem mem_getAllList {cs : List FT} {dep : ℕ} {x : String} :
    x ∈ getAllList cs dep ↔ ∃ c ∈ cs, x ∈ getAllIncludedFiles c dep := by
  induction cs with
  | nil => simp [getAllList]
  | cons c0 cs2 ih => simp [getAllList, ih]

theorem mem_leavesList {cs : List FT} {ld : NData} :
    ld ∈ leavesList cs ↔ ∃ c ∈ cs, ld ∈ leavesData c := by
  induction cs with
  | nil => simp [leavesList]
  | cons c0 cs2 ih => simp [leavesList, ih]

theorem getAll_leaf_spec : ∀ t : FT, ∀ dep : ℕ, 1 ≤ dep →
    ∀ x ∈ getAllIncludedFiles t dep, ∃ ld ∈ leavesData t,
      ld.path = x ∧ ld.included = true ∧ ld.enabled = true := by
  intro t
  induction t using FT.myInduction with
  | h d cs ih =>
    intro dep hdep x hx
    have hne : (dep == 0) = false := by
      simp only [beq_eq_false_iff_ne, ne_eq]
      omega
    cases cs with
    | nil =>
      by_cases hI : d.included = true
      · by_cases hE : d.enabled = true
        · simp only [getAllIncludedFiles, hne, hI, hE, Bool.false_or, Bool.not_true,
            Bool.or_self, Bool.false_eq_true, if_false, List.mem_singleton] at hx
          exact ⟨d, by simp [leavesData], hx.symm, hI, hE⟩
        · rw [Bool.not_eq_true] at hE
          simp [getAllIncludedFiles, hne, hI, hE] at hx
      · rw [Bool.not_eq_true] at hI
        simp [getAllIncludedFiles, hne, hI] at hx
    | cons c0 cs2 =>
      by_cases hI : d.included = true
      · by_cases hE : d.enabled = true
        · simp only [getAllIncludedFiles, hne, hI, hE, Bool.false_or, Bool.not_true,
            Bool.or_self, Bool.false_eq_true, if_false] at hx
          obtain ⟨c, hcmem, hcx⟩ := mem_getAllList.mp hx
          obtain ⟨ld, hld, hpath, hinc, hen⟩ := ih c hcmem (dep + 1) (by omega) x hcx
          refine ⟨ld, ?_, hpath, hinc, hen⟩
          simp only [leavesData]
          exact mem_leavesList.mpr ⟨c, hcmem, hld⟩
        · rw [Bool.not_eq_true] at hE
          simp [getAllIncludedFiles, hne, hI, hE] at hx
      · rw [Bool.not_eq_true] at hI
        simp [getAllIncludedFiles, hne, hI] at hx

/-- **C6.**  Every path emitted by `get_all_included_files` (called on the
root, depth 0) belongs to a leaf whose `included` flag is on and whose
checkbox is enabled — i.e. a leaf that is not masked (`prune_fbx` masks a
leaf exactly by disabling its checkbox).  In particular no masked leaf is
ever emitted, whatever its `included` flag.  The root built by
`_update_all_files` always has children. -/
theorem flatten_no_masked (t : FT) (hroot : t.children ≠ []) :
    ∀ x ∈ getAllIncludedFiles t 0, ∃ ld ∈ leavesData t,
      ld.path = x ∧ ld.included = true ∧ ld.enabled = true := by
  obtain ⟨d, cs⟩ := t
  cases cs with
  | nil => exact absurd rfl hroot
  | cons c0 cs2 =>
    intro x hx
    by_cases hI : d.included = true
    · simp only [getAllIncludedFiles, hI, Bool.not_true, Bool.or_false, Bool.not_false,
        if_false] at hx
      obtain ⟨c, hcmem, hcx⟩ := mem_getAllList.mp hx
      obtain ⟨ld, hld, hpath, hinc, hen⟩ := getAll_leaf_spec c 1 le_rfl x hcx
      refine ⟨ld, ?_, hpath, hinc, hen⟩
      simp only [leavesData]
      exact mem_leavesList.mpr ⟨c, hcmem, hld⟩
    · rw [Bool.not_eq_true] at hI
      simp [getAllIncludedFiles, hI] at hx

theorem flatten_no_masked_witness :
    ∃ ld ∈ leavesData tMasked,
      ld.path = "/src/a.fbx" ∧ ld.included = true ∧ ld.enabled = true :=
  flatten_no_masked tMasked (by decide) "/src/a.fbx" (by decide)

/-! ## Batch pipeline: overwrite warnings (C9) -/

theorem foldl_writeGo (fbx : List String) : ∀ (path : String) (fs : List String) (w : ℕ),
    fbx.foldl (fun acc f =>
      let full := path ++ "_" ++ f ++ ".fbx"
      ((if full ∈ acc.2 then acc.1 + 1 else acc.1), full :: acc.2)) (w, fs) =
    writeGo (fbx.map (fun f => path ++ "_" ++ f ++ ".fbx")) fs w := by
  induction fbx with
  | nil => intro path fs w; rfl
  | cons f fbx2 ih =>
    intro path fs w
    simp only [List.foldl_cons, List.map_cons, writeGo]
    exact ih path _ _

theorem writeFile_eq_writeGo (own comb : Bool) (fbx : List String) (path : String)
    (fs : List String) :
    writeFile own comb fbx path fs = writeGo (writeTargets own comb fbx path) fs 0 := by
  cases h : (own && !comb) with
  | true =>
    simp only [writeFile, writeTargets, h, if_true]
    exact foldl_writeGo fbx path fs 0
  | false =>
    simp only [writeFile, writeTargets, h, Bool.false_eq_true, if_false, writeGo]

theorem writeGo_all_new : ∀ (ts : List String) (fs : List String) (w : ℕ),
    ts.Nodup → (∀ t ∈ ts, t ∉ fs) → (writeGo ts fs w).1 = w := by
  intro ts
  induction ts with
  | nil => intro fs w _ _; rfl
  | cons t ts2 ih =>
    intro fs w hnd hno
    have hn : t ∉ fs := hno t (List.mem_cons_self t ts2)
    simp only [writeGo, hn, if_false]
    refine ih (t :: fs) w (List.Nodup.of_cons hnd) ?_
    intro x hx
    rcases List.nodup_cons.mp hnd with ⟨htn, _⟩
    simp only [List.mem_cons]
    rintro (rfl | hxf)
    · exact htn hx
    · exact hno x (List.mem_cons_of_mem t hx) hxf

theorem writeGo_all_exist : ∀ (ts : List String) (fs : List String) (w : ℕ),
    (∀ t ∈ ts, t ∈ fs) → (writeGo ts fs w).1 = w + ts.length := by
  intro ts
  induction ts with
  | nil => intro fs w _; rfl
  | cons t ts2 ih =>
    intro fs w hall
    have ht : t ∈ fs := hall t (List.mem_cons_self t ts2)
    simp only [writeGo, ht, if_true]
    rw [ih (t :: fs) (w + 1)
      (fun x hx => List.mem_cons_of_mem t (hall x (List.mem_cons_of_mem t hx)))]
    simp only [List.length_cons]
    omega

theorem writeGo_grows : ∀ (ts : List String) (fs : List String) (w : ℕ),
    (∀ t ∈ ts, t ∈ (writeGo ts fs w).2) ∧ (∀ x ∈ fs, x ∈ (writeGo ts fs w).2) := by
  intro ts
  induction ts with
  | nil => intro fs w; exact ⟨by simp, fun x hx => hx⟩
  | cons t ts2 ih =>
    intro fs w
    constructor
    · intro x hx
      rcases List.mem_cons.mp hx with rfl | hx2
      · exact (ih (x :: fs) _).2 x (List.mem_cons_self x fs)
      · exact (ih (t :: fs) _).1 x hx2
    · intro x hx
      exact (ih (t :: fs) _).2 x (List.mem_cons_of_mem t hx)

/-- **C9.**  Overwrite warnings of `__write_file` and of the non-fbx copy
branch: a run over fresh targets warns zero times; a target that exists at
write time produces exactly one warning, so a run whose targets all exist
warns once per output file; in particular running `__write_file` twice
with the same arguments produces, the second time, one overwrite warning
per output file, and copying over an existing file warns exactly once. -/
theorem writeFile_overwrite_spec (own comb : Bool) (fbx : List String) (path : String)
    (fs : List String) :
    ((writeTargets own comb fbx path).Nodup →
      (∀ tg ∈ writeTargets own comb fbx path, tg ∉ fs) →
      (writeFile own comb fbx path fs).1 = 0) ∧
    ((∀ tg ∈ writeTargets own comb fbx path, tg ∈ fs) →
      (writeFile own comb fbx path fs).1 = (writeTargets own comb fbx path).length) ∧
    (writeFile own comb fbx path ((writeFile own comb fbx path fs).2)).1 =
      (writeTargets own comb fbx path).length ∧
    (path ∉ fs → (copyFileStep path fs).1 = 0) ∧
    (copyFileStep path ((copyFileStep path fs).2)).1 = 1 := by
  refine ⟨?_, ?_, ?_, ?_, ?_⟩
  · intro hnd hno
    rw [writeFile_eq_writeGo]
    exact writeGo_all_new _ fs 0 hnd hno
  · intro hall
    rw [writeFile_eq_writeGo]
    rw [writeGo_all_exist _ fs 0 hall]
    omega
  · rw [writeFile_eq_writeGo, writeFile_eq_writeGo]
    refine (writeGo_all_exist _ _ 0 ?_).trans (by omega)
    intro tg htg
    exact (writeGo_grows (writeTargets own comb fbx path) fs 0).1 tg htg
  · intro hno
    simp [copyFileStep, hno]
  · simp [copyFileStep]

theorem c9_witness :
    (writeFile true false ["objA", "objB"] "/out/x" []).1 = 0 ∧
    (writeFile true false ["objA", "objB"] "/out/x"
      ((writeFile true false ["objA", "objB"] "/out/x" []).2)).1 =
      (writeTargets true false ["objA", "objB"] "/out/x").length := by
  have h := writeFile_overwrite_spec true false ["objA", "objB"] "/out/x" []
  exact ⟨h.1 (by decide) (by decide), h.2.2.1⟩

/-! ## Selection tree: paths, shapes and `add_filter_children` (C8) -/

theorem isUnder_iff (p : List ℕ) : ∀ L, isUnder p L = true ↔ ∃ s, L = p ++ s := by
  induction p with
  | nil =>
    intro L
    simp [isUnder]
  | cons i p2 ih =>
    intro L
    cases L with
    | nil =>
      simp only [isUnder, Bool.false_eq_true, false_iff]
      rintro ⟨s, hs⟩
      cases hs
    | cons j L2 =>
      simp only [isUnder, Bool.and_eq_true, beq_iff_eq, ih L2]
      constructor
      · rintro ⟨rfl, s, rfl⟩
        exact ⟨s, rfl⟩
      · rintro ⟨s, hs⟩
        rw [List.cons_append] at hs
        cases hs
        exact ⟨rfl, s, rfl⟩

theorem isUnder_refl (p : List ℕ) : isUnder p p = true :=
  (isUnder_iff p p).mpr ⟨[], by simp⟩

theorem getAt_append (p : List ℕ) : ∀ (q : List ℕ) (t : FT),
    getAt? t (p ++ q) = (getAt? t p).bind (fun s => getAt? s q) := by
  induction p with
  | nil =>
    intro q t
    simp only [List.nil_append, getAt?, Option.some_bind]
  | cons i p2 ih =>
    intro q t
    obtain ⟨d, cs⟩ := t
    simp only [List.cons_append, getAt?]
    cases hg : cs.get? i with
    | none => rfl
    | some c => exact ih q c

theorem stripList_nil {cs : List FT} (h : stripList cs = []) : cs = [] := by
  cases cs with
  | nil => rfl
  | cons c cs2 => simp [stripList] at h

theorem stripList_cons {cs : List FT} {y : FT} {ys : List FT}
    (h : stripList cs = y :: ys) :
    ∃ c cs2, cs = c :: cs2 ∧ stripData c = y ∧ stripList cs2 = ys := by
  cases cs with
  | nil => simp [stripList] at h
  | cons c cs2 =>
    simp only [stripList, List.cons.injEq] at h
    exact ⟨c, cs2, rfl, h.1, h.2⟩

theorem stripData_node_inv {t : FT} {d0 : NData} {ys : List FT}
    (h : stripData t = .node d0 ys) :
    ∃ d cs, t = .node d cs ∧ stripList cs = ys := by
  obtain ⟨d, cs⟩ := t
  simp only [stripData, FT.node.injEq] at h
  exact ⟨d, cs, rfl, h.2⟩

theorem stripList_length {cs1 : List FT} : ∀ {cs2 : List FT},
    stripList cs1 = stripList cs2 → cs1.length = cs2.length := by
  induction cs1 with
  | nil =>
    intro cs2 h
    rw [(stripList_nil h.symm : cs2 = [])]
  | cons c cs ih =>
    intro cs2 h
    obtain ⟨c2, cs2b, rfl, _, h2⟩ := @stripList_cons cs2 _ _ h.symm
    simp [ih h2.symm]

theorem stripList_get? {cs1 : List FT} : ∀ {cs2 : List FT},
    stripList cs1 = stripList cs2 → ∀ i,
    Option.map stripData (cs1.get? i) = Option.map stripData (cs2.get? i) := by
  induction cs1 with
  | nil =>
    intro cs2 h i
    rw [(stripList_nil h.symm : cs2 = [])]
  | cons c cs ih =>
    intro cs2 h i
    obtain ⟨c2, cs2b, rfl, hc, h2⟩ := @stripList_cons cs2 _ _ h.symm
    cases i with
    | zero => simp [hc]
    | succ n => exact ih h2.symm n

theorem stripList_drop {cs1 : List FT} : ∀ {cs2 : List FT},
    stripList cs1 = stripList cs2 → ∀ n,
    stripList (cs1.drop n) = stripList (cs2.drop n) := by
  induction cs1 with
  | nil =>
    intro cs2 h n
    rw [(stripList_nil h.symm : cs2 = [])]
  | cons c cs ih =>
    intro cs2 h n
    obtain ⟨c2, cs2b, rfl, hc, h2⟩ := @stripList_cons cs2 _ _ h.symm
    cases n with
    | zero => rw [List.drop_zero, List.drop_zero, h]
    | succ m => exact ih h2.symm m

theorem strip_getAt {t1 t2 : FT} (h : stripData t1 = stripData t2) : ∀ (p : List ℕ),
    Option.map stripData (getAt? t1 p) = Option.map stripData (getAt? t2 p) := by
  intro p
  induction p generalizing t1 t2 with
  | nil => simpa [getAt?] using h
  | cons i rest ih =>
    obtain ⟨d1, cs1⟩ := t1
    obtain ⟨d2, cs2⟩ := t2
    simp only [stripData, FT.node.injEq, true_and] at h
    simp only [getAt?]
    have hg := stripList_get? h i
    cases h1 : cs1.get? i with
    | none =>
      rw [h1] at hg
      cases h2 : cs2.get? i with
      | none => rfl
      | some c2 => rw [h2] at hg; cases hg
    | some c1 =>
      rw [h1] at hg
      cases h2 : cs2.get? i with
      | none => rw [h2] at hg; cases hg
      | some c2 =>
        rw [h2] at hg
        simp only [Option.map_some'] at hg
        exact ih (Option.some.inj hg)

/-- Transfer of a leaf position along a shape equality. -/
theorem strip_leaf_transfer {t1 t2 : FT} (h : stripData t1 = stripData t2)
    {L : List ℕ} {d : NData} (hL : getAt? t2 L = some (.node d [])) :
    ∃ d1, getAt? t1 L = some (.node d1 []) := by
  have := strip_getAt h L
  rw [hL] at this
  cases h1 : getAt? t1 L with
  | none => rw [h1] at this; cases this
  | some s =>
    rw [h1] at this
    simp only [Option.map_some'] at this
    have hss := Option.some.inj this
    rw [show stripData (.node d []) =
      FT.node ⟨"", "", true, false, Font.plain, true, false⟩ [] from rfl] at hss
    obtain ⟨d1, cs1, rfl, hcs⟩ := stripData_node_inv hss
    rw [stripList_nil hcs]
    exact ⟨d1, rfl⟩

theorem getAt_setAt_self : ∀ (p : List ℕ) (t x : FT),
    (getAt? t p).isSome → getAt? (setAt t p x) p = some x := by
  intro p
  induction p with
  | nil =>
    intro t x _
    simp [setAt, getAt?]
  | cons i rest ih =>
    intro t x hv
    obtain ⟨d, cs⟩ := t
    simp only [getAt?] at hv ⊢
    cases hg : cs.get? i with
    | none => rw [hg] at hv; simp [Option.isSome] at hv
    | some c =>
      rw [hg] at hv
      simp only [setAt, hg]
      have hlt : i < cs.length := (List.get?_eq_some.mp hg).1
      rw [List.get?_set_eq_of_lt _ hlt]
      exact ih c x hv

theorem getAt_setAt_leaf : ∀ (p : List ℕ) (t x : FT) (L : List ℕ) (d : NData),
    (getAt? t p).isSome → getAt? t L = some (.node d []) →
    getAt? (setAt t p x) L =
      if isUnder p L then getAt? x (L.drop p.length) else some (.node d []) := by
  intro p
  induction p with
  | nil =>
    intro t x L d _ hL
    obtain ⟨dt, cs⟩ := t
    simp [setAt, isUnder]
  | cons i rest ih =>
    intro t x L d hv hL
    obtain ⟨dt, cs⟩ := t
    simp only [getAt?] at hv
    cases hg : cs.get? i with
    | none => rw [hg] at hv; simp [Option.isSome] at hv
    | some c =>
    rw [hg] at hv
    have hlt : i < cs.length := (List.get?_eq_some.mp hg).1
    cases L with
    | nil =>
      simp only [getAt?, Option.some.injEq] at hL
      obtain ⟨rfl, rfl⟩ : dt = d ∧ cs = [] := by
        cases hL
        exact ⟨rfl, rfl⟩
      simp at hg
    | cons j L2 =>
      simp only [getAt?] at hL
      simp only [setAt, hg, getAt?]
      by_cases hij : j = i
      · subst hij
        rw [List.get?_set_eq_of_lt _ hlt]
        rw [hg] at hL
        have := ih c x L2 d hv hL
        simp only [isUnder, beq_self_eq_true, Bool.true_and, List.length_cons,
          List.drop_succ_cons]
        exact this
      · rw [List.get?_set_ne _ _ (fun heq => hij heq.symm)]
        rw [hL]
        have : isUnder (i :: rest) (j :: L2) = false := by
          simp only [isUnder, Bool.and_eq_false_iff]
          left
          simp only [beq_eq_false_iff_ne, ne_eq]
          exact fun heq => hij heq.symm
        rw [this]
        simp

theorem strip_setAt : ∀ (p : List ℕ) (t x sub : FT),
    getAt? t p = some sub → stripData x = stripData sub →
    stripData (setAt t p x) = stripData t := by
  intro p
  induction p with
  | nil =>
    intro t x sub hget hx
    obtain ⟨d, cs⟩ := t
    simp only [getAt?, Option.some.injEq] at hget
    rw [← hget] at hx
    simpa [setAt] using hx
  | cons i rest ih =>
    intro t x sub hget hx
    obtain ⟨d, cs⟩ := t
    simp only [getAt?] at hget
    cases hg : cs.get? i with
    | none => rw [hg] at hget; cases hget
    | some c =>
    rw [hg] at hget
    simp only [setAt, hg, stripData, FT.node.injEq, true_and]
    have hrec := ih c x sub hget hx
    clear hget hx
    induction cs generalizing i with
    | nil => cases hg
    | cons c0 cs2 ihl =>
      cases i with
      | zero =>
        simp only [List.get?] at hg
        cases hg
        simp [List.set, stripList, hrec]
      | succ n =>
        simp only [List.get?] at hg
        simp only [List.set, stripList, List.cons.injEq, true_and]
        exact ihl n hg

theorem strip_childIncludeNode (sd : NData) (scs : List FT) (v : Bool) :
    stripData (childIncludeNode (.node sd scs) v).1 = stripData (.node sd scs) := by
  rw [childIncludeNode_fst]
  rfl

/-- Replacing the node at `q` by its `child_include` image never changes
the record of any childless node, provided the node at `q` has children. -/
theorem step_preserves_leaf (t : FT) (q : List ℕ) (v : Bool) (sd : NData) (scs : List FT)
    (hq : getAt? t q = some (.node sd scs)) (hne : scs ≠ [])
    (L : List ℕ) (d : NData) (hL : getAt? t L = some (.node d [])) :
    getAt? (setAt t q (childIncludeNode (.node sd scs) v).1) L = some (.node d []) := by
  rw [childIncludeNode_fst]
  rw [getAt_setAt_leaf q t _ L d (by rw [hq]; rfl) hL]
  by_cases hu : isUnder q L = true
  · obtain ⟨s, rfl⟩ := (isUnder_iff q _).mp hu
    rw [getAt_append, hq] at hL
    simp only [Option.some_bind] at hL
    rw [if_pos hu, List.drop_left]
    cases s with
    | nil =>
      simp only [getAt?, Option.some.injEq] at hL
      obtain ⟨_, rfl⟩ : sd = d ∧ scs = [] := by
        cases hL
        exact ⟨rfl, rfl⟩
      exact absurd rfl hne
    | cons k s2 =>
      simp only [getAt?] at hL ⊢
      exact hL
  · rw [if_neg hu]

theorem childIncludeUp_main : ∀ (n : ℕ) (q : List ℕ), q.length ≤ n →
    ∀ (t : FT) (v : Bool) (sd : NData) (scs : List FT),
    getAt? t q = some (.node sd scs) → scs ≠ [] →
    (∀ L d, getAt? t L = some (.node d []) →
      getAt? (childIncludeUp t q v) L = some (.node d [])) ∧
    stripData (childIncludeUp t q v) = stripData t := by
  intro n
  induction n with
  | zero =>
    intro q hlen t v sd scs hq hne
    have hq0 : q = [] := List.length_eq_zero.mp (Nat.le_zero.mp hlen)
    subst hq0
    have hcond : ¬((childIncludeNode (.node sd scs) v).2 = true ∧
        1 < ([] : List ℕ).length) := by
      rintro ⟨_, h2⟩
      simp at h2
    have hstep : childIncludeUp t [] v =
        setAt t [] (childIncludeNode (.node sd scs) v).1 := by
      rw [childIncludeUp, hq]
      exact dif_neg hcond
    rw [hstep]
    refine ⟨?_, ?_⟩
    · intro L d hL
      exact step_preserves_leaf t [] v sd scs hq hne L d hL
    · exact strip_setAt [] t _ _ hq (strip_childIncludeNode sd scs v)
  | succ n ih =>
    intro q hlen t v sd scs hq hne
    by_cases hcond : (childIncludeNode (.node sd scs) v).2 = true ∧ 1 < q.length
    · have hstep : childIncludeUp t q v =
          childIncludeUp (setAt t q (childIncludeNode (.node sd scs) v).1)
            q.dropLast v := by
        rw [childIncludeUp, hq]
        exact dif_pos hcond
      rw [hstep]
      have hqne : q ≠ [] := by
        intro h
        rw [h] at hcond
        simp at hcond
      have hsplit : q.dropLast ++ [q.getLast hqne] = q := List.dropLast_append_getLast hqne
      have hvq : (getAt? t q).isSome := by rw [hq]; rfl
      set X := setAt t q (childIncludeNode (.node sd scs) v).1 with hX
      have hq2 : getAt? X q = some (childIncludeNode (.node sd scs) v).1 :=
        getAt_setAt_self q t _ hvq
      have hpar : ∃ pd pcs, getAt? X q.dropLast = some (.node pd pcs) ∧ pcs ≠ [] := by
        rw [← hsplit, getAt_append] at hq2
        cases hp : getAt? X q.dropLast with
        | none => rw [hp] at hq2; cases hq2
        | some P =>
          rw [hp] at hq2
          simp only [Option.some_bind] at hq2
          obtain ⟨pd, pcs⟩ := P
          refine ⟨pd, pcs, rfl, ?_⟩
          intro hnil
          subst hnil
          simp only [getAt?] at hq2
          cases hg2 : List.get? [] (q.getLast hqne) with
          | none => rw [hg2] at hq2; cases hq2
          | some c => simp at hg2
      obtain ⟨pd, pcs, hpar1, hpar2⟩ := hpar
      have hdrop : q.dropLast.length ≤ n := by
        have := List.length_dropLast q
        omega
      have hrec := ih q.dropLast hdrop X v pd pcs hpar1 hpar2
      refine ⟨?_, ?_⟩
      · intro L d hL
        exact hrec.1 L d (step_preserves_leaf t q v sd scs hq hne L d hL)
      · rw [hrec.2]
        exact strip_setAt q t _ _ hq (strip_childIncludeNode sd scs v)
    · have hstep : childIncludeUp t q v =
          setAt t q (childIncludeNode (.node sd scs) v).1 := by
        rw [childIncludeUp, hq]
        exact dif_neg hcond
      rw [hstep]
      refine ⟨?_, ?_⟩
      · intro L d hL
        exact step_preserves_leaf t q v sd scs hq hne L d hL
      · exact strip_setAt q t _ _ hq (strip_childIncludeNode sd scs v)

theorem isUnder_leaf_eq {t : FT} {p L : List ℕ} {d2 d : NData}
    (hp : getAt? t p = some (.node d2 [])) (hL : getAt? t L = some (.node d []))
    (hu : isUnder p L = true) : L = p := by
  obtain ⟨s, rfl⟩ := (isUnder_iff p _).mp hu
  rw [getAt_append, hp] at hL
  simp only [Option.some_bind] at hL
  cases s with
  | nil => simp
  | cons k s2 =>
    simp only [getAt?, List.get?_nil] at hL
    cases hL

theorem range_any_shift (n : ℕ) (f : ℕ → Bool) :
    (List.range (n + 1)).any f = (f 0 || (List.range n).any fun k => f (k + 1)) := by
  rw [List.range_succ_eq_map]
  simp [List.any_map, Function.comp_def]

theorem isUnder_distinct {p : List ℕ} {a b : ℕ} {L : List ℕ}
    (ha : isUnder (p ++ [a]) L = true) (hb : isUnder (p ++ [b]) L = true) : a = b := by
  obtain ⟨s1, h1⟩ := (isUnder_iff _ _).mp ha
  obtain ⟨s2, h2⟩ := (isUnder_iff _ _).mp hb
  rw [h1] at h2
  simp only [List.append_assoc, List.singleton_append] at h2
  have h3 := List.append_cancel_left h2
  cases h3
  rfl

theorem isUnder_of_append {p r L : List ℕ} (h : isUnder (p ++ r) L = true) :
    isUnder p L = true := by
  obtain ⟨s, rfl⟩ := (isUnder_iff _ _).mp h
  exact (isUnder_iff p _).mpr ⟨r ++ s, by simp⟩

theorem isUnder_append_child (p : List ℕ) (k : ℕ) (s2 : List ℕ) :
    isUnder (p ++ [k]) (p ++ k :: s2) = true :=
  (isUnder_iff _ _).mpr ⟨s2, by simp⟩

theorem getAt_child {t : FT} {p : List ℕ} {sd : NData} {scs : List FT} (k : ℕ)
    (hp : getAt? t p = some (.node sd scs)) :
    getAt? t (p ++ [k]) = scs.get? k := by
  rw [getAt_append, hp]
  have hk2 : scs[k]? = scs.get? k := (List.get?_eq_getElem? scs k).symm
  simp only [Option.some_bind, getAt?, hk2]
  cases scs.get? k <;> rfl

theorem getAt_parent {X : FT} {r : List ℕ} {j : ℕ} {s : FT}
    (h : getAt? X (r ++ [j]) = some s) :
    ∃ pd pcs, getAt? X r = some (.node pd pcs) ∧ pcs ≠ [] := by
  rw [getAt_append] at h
  cases hr : getAt? X r with
  | none => rw [hr] at h; cases h
  | some P =>
    rw [hr] at h
    simp only [Option.some_bind] at h
    obtain ⟨pd, pcs⟩ := P
    refine ⟨pd, pcs, rfl, ?_⟩
    intro hnil
    subst hnil
    simp [getAt?] at h

theorem addFilterList_spec (gs : List FT) : ∀ (idx : ℕ) (t : FT) (p : List ℕ)
    (sd : NData) (scs : List FT),
    getAt? t p = some (.node sd scs) → stripList gs = stripList (scs.drop idx) →
    (∀ g ∈ gs, addFilterSpec g) →
    stripData (addFilterList gs idx t p) = stripData t ∧
    ∀ (L : List ℕ) (d : NData), getAt? t L = some (.node d []) →
      getAt? (addFilterList gs idx t p) L =
        some (.node (if ((List.range gs.length).any fun k => isUnder (p ++ [idx + k]) L)
          && !d.filtered then setIncludedData d true else d) []) := by
  induction gs with
  | nil =>
    intro idx t p sd scs hp hstrip hall
    refine ⟨rfl, ?_⟩
    intro L d hL
    simpa [addFilterList, List.range_zero] using hL
  | cons g gs2 ih =>
    intro idx t p sd scs hp hstrip hall
    obtain ⟨c, rest2, hdropeq, hgc, hrest⟩ : ∃ c rest2, scs.drop idx = c :: rest2 ∧
        stripData g = stripData c ∧ stripList gs2 = stripList rest2 := by
      cases hd : scs.drop idx with
      | nil =>
        rw [hd] at hstrip
        simp [stripList] at hstrip
      | cons c r2 =>
        rw [hd] at hstrip
        simp only [stripList, List.cons.injEq] at hstrip
        exact ⟨c, r2, rfl, hstrip.1, hstrip.2⟩
    have hscsk : scs.get? idx = some c := by
      have h0 := List.get?_drop scs idx 0
      rw [hdropeq] at h0
      simpa using h0.symm
    have hrestdrop : scs.drop (idx + 1) = rest2 := by
      have h1 : scs.drop (idx + 1) = (scs.drop idx).drop 1 := by
        rw [List.drop_drop, Nat.add_comm idx 1]
      rw [h1, hdropeq]
      rfl
    have hchild : getAt? t (p ++ [idx]) = some c := by
      rw [getAt_child idx hp]
      exact hscsk
    obtain ⟨hstrip1, hleaf1⟩ :=
      hall g (List.mem_cons_self g gs2) t (p ++ [idx]) c hchild hgc
    obtain ⟨sd2, scs2, hp2, hscs2⟩ : ∃ sd2 scs2,
        getAt? (addFilterGo g t (p ++ [idx])) p = some (.node sd2 scs2) ∧
        stripList scs2 = stripList scs := by
      have htrans := strip_getAt hstrip1 p
      rw [hp] at htrans
      cases hg2 : getAt? (addFilterGo g t (p ++ [idx])) p with
      | none => rw [hg2] at htrans; cases htrans
      | some s2 =>
        rw [hg2] at htrans
        simp only [Option.map_some'] at htrans
        have hss := Option.some.inj htrans
        have hss2 : stripData s2 =
            FT.node ⟨"", "", true, false, Font.plain, true, false⟩ (stripList scs) := by
          rw [hss]
          rfl
        obtain ⟨sd2, scs2, rfl, hcs2⟩ := stripData_node_inv hss2
        exact ⟨sd2, scs2, rfl, hcs2⟩
    have hstrip2 : stripList gs2 = stripList (scs2.drop (idx + 1)) := by
      rw [stripList_drop hscs2 (idx + 1), hrestdrop]
      exact hrest
    have hallrest : ∀ g2 ∈ gs2, addFilterSpec g2 :=
      fun g2 hg2 => hall g2 (List.mem_cons_of_mem g hg2)
    obtain ⟨ihs, ihl⟩ := ih (idx + 1) (addFilterGo g t (p ++ [idx])) p sd2 scs2
      hp2 hstrip2 hallrest
    rw [addFilterList]
    constructor
    · rw [ihs, hstrip1]
    · intro L d hL
      have hL1 := hleaf1 L d hL
      have hfin := ihl L _ hL1
      rw [hfin]
      have hfilt : (if isUnder (p ++ [idx]) L && !d.filtered then
          setIncludedData d true else d).filtered = d.filtered := by
        split <;> rfl
      simp only [List.length_cons, range_any_shift]
      have hshift : ((List.range gs2.length).any fun k =>
            isUnder (p ++ [idx + (k + 1)]) L) =
          ((List.range gs2.length).any fun k => isUnder (p ++ [idx + 1 + k]) L) := by
        congr 1
        funext k
        rw [show idx + (k + 1) = idx + 1 + k by omega]
      by_cases hf : d.filtered = true
      · simp [hf]
      · rw [Bool.not_eq_true] at hf
        by_cases h0 : isUnder (p ++ [idx]) L = true
        · have hA2 : ((List.range gs2.length).any fun k =>
              isUnder (p ++ [idx + 1 + k]) L) = false := by
            by_contra hc
            rw [Bool.not_eq_false] at hc
            obtain ⟨k, _, hk⟩ := List.any_eq_true.mp hc
            have := isUnder_distinct h0 hk
            omega
          have hA2b : ((List.range gs2.length).any fun k =>
              isUnder (p ++ [idx + (k + 1)]) L) = false := by
            rw [hshift]
            exact hA2
          simp [h0, hf, hA2, hA2b, setIncludedData]
        · rw [Bool.not_eq_true] at h0
          simp [h0, hf, hshift]

theorem childIncludeUp_leaf_root (d2 : NData) :
    childIncludeUp (.node (setIncludedData d2 true) []) [] true =
      .node (setIncludedData d2 true) [] := by
  rw [childIncludeUp]
  rfl

theorem any_child_isUnder {t : FT} {p L : List ℕ} {d2 d : NData} {cs2 : List FT}
    (hp : getAt? t p = some (.node d2 cs2)) (hne : cs2 ≠ [])
    (hL : getAt? t L = some (.node d [])) :
    ((List.range cs2.length).any fun k => isUnder (p ++ [k]) L) = isUnder p L := by
  by_cases hu : isUnder p L = true
  · rw [hu]
    obtain ⟨s, rfl⟩ := (isUnder_iff p L).mp hu
    cases s with
    | nil =>
      rw [List.append_nil, hp] at hL
      simp only [Option.some.injEq, FT.node.injEq] at hL
      exact absurd hL.2 hne
    | cons k s2 =>
      apply List.any_eq_true.mpr
      refine ⟨k, List.mem_range.mpr ?_, isUnder_append_child p k s2⟩
      have hL2 : getAt? t ((p ++ [k]) ++ s2) = some (.node d []) := by
        rw [List.append_assoc]
        exact hL
      rw [getAt_append, getAt_child k hp] at hL2
      cases hg : cs2.get? k with
      | none => rw [hg] at hL2; cases hL2
      | some c => exact (List.get?_eq_some.mp hg).1
  · rw [Bool.not_eq_true] at hu
    rw [hu]
    rw [List.any_eq_false]
    intro k _ hk
    exact absurd (isUnder_of_append hk) (by simp [hu])

theorem addFilterGo_spec : ∀ g : FT, addFilterSpec g := by
  intro g
  induction g using FT.myInduction with
  | h gd gcs ihg =>
    intro t p sub hsub hstrip
    cases gcs with
    | nil =>
      have hss : stripData sub =
          FT.node ⟨"", "", true, false, Font.plain, true, false⟩ [] := by
        rw [← hstrip]
        rfl
      obtain ⟨d2, cs2, rfl, hcs2⟩ := stripData_node_inv hss
      obtain rfl : cs2 = [] := stripList_nil hcs2
      have hgo : addFilterGo (.node gd []) t p =
          if !d2.filtered then
            childIncludeUp (setAt t p (.node (setIncludedData d2 true) []))
              p.dropLast true
          else t := by
        rw [addFilterGo, hsub]
      by_cases hfd : d2.filtered = true
      · rw [hgo, if_neg (by simp [hfd])]
        refine ⟨rfl, ?_⟩
        intro L d hL
        by_cases hu : isUnder p L = true
        · have hLp : L = p := isUnder_leaf_eq hsub hL hu
          subst hLp
          rw [hsub] at hL
          simp only [Option.some.injEq, FT.node.injEq] at hL
          obtain ⟨rfl, -⟩ := hL
          rw [hsub]
          simp [hu, hfd]
        · rw [Bool.not_eq_true] at hu
          rw [hL]
          simp [hu]
      · rw [Bool.not_eq_true] at hfd
        rw [hgo, if_pos (by simp [hfd])]
        by_cases hp0 : p = []
        · subst hp0
          have ht : t = .node d2 [] := by
            simpa [getAt?] using hsub
          subst ht
          rw [show setAt (FT.node d2 []) [] (.node (setIncludedData d2 true) []) =
              .node (setIncludedData d2 true) [] from rfl]
          rw [show List.dropLast ([] : List ℕ) = [] from rfl]
          rw [childIncludeUp_leaf_root]
          refine ⟨rfl, ?_⟩
          intro L d hL
          cases L with
          | nil =>
            simp only [getAt?, Option.some.injEq, FT.node.injEq] at hL
            obtain ⟨rfl, -⟩ := hL
            simp [getAt?, isUnder, hfd]
          | cons i rest =>
            simp [getAt?] at hL
        · have hvp : (getAt? t p).isSome := by rw [hsub]; rfl
          set x := FT.node (setIncludedData d2 true) [] with hx
          set Y := setAt t p x with hY
          have hYp : getAt? Y p = some x := getAt_setAt_self p t x hvp
          have hsplit : p.dropLast ++ [p.getLast hp0] = p :=
            List.dropLast_append_getLast hp0
          obtain ⟨pd, pcs, hpar1, hpar2⟩ : ∃ pd pcs,
              getAt? Y p.dropLast = some (.node pd pcs) ∧ pcs ≠ [] := by
            have hq2 : getAt? Y (p.dropLast ++ [p.getLast hp0]) = some x := by
              rw [hsplit]
              exact hYp
            exact getAt_parent hq2
          have hmain := childIncludeUp_main p.dropLast.length p.dropLast (le_refl _)
            Y true pd pcs hpar1 hpar2
          refine ⟨?_, ?_⟩
          · rw [hmain.2, hY]
            exact strip_setAt p t x _ hsub rfl
          · intro L d hL
            have hYleafIf := getAt_setAt_leaf p t x L d hvp hL
            by_cases hu : isUnder p L = true
            · have hLp : L = p := isUnder_leaf_eq hsub hL hu
              subst hLp
              rw [hsub] at hL
              simp only [Option.some.injEq, FT.node.injEq] at hL
              obtain ⟨rfl, -⟩ := hL
              have hres := hmain.1 L (setIncludedData d2 true) hYp
              rw [hres]
              simp [hu, hfd]
            · rw [Bool.not_eq_true] at hu
              have hYleaf : getAt? Y L = some (.node d []) := by
                rw [hYleafIf, hu]
                simp
              have hres := hmain.1 L d hYleaf
              rw [hres]
              simp [hu]
    | cons g0 gs =>
      have hss : stripData sub =
          FT.node ⟨"", "", true, false, Font.plain, true, false⟩
            (stripList (g0 :: gs)) := by
        rw [← hstrip]
        rfl
      obtain ⟨d2, cs2, rfl, hcs2⟩ := stripData_node_inv hss
      have hne : cs2 ≠ [] := by
        intro h
        subst h
        simp [stripList] at hcs2
      obtain ⟨hs1, hl1⟩ := addFilterList_spec (g0 :: gs) 0 t p d2 cs2 hsub
        (by rw [List.drop_zero]; exact hcs2.symm) ihg
      have hlen : (g0 :: gs : List FT).length = cs2.length := stripList_length hcs2.symm
      have hgo : addFilterGo (.node gd (g0 :: gs)) t p =
          if 1 < p.length then
            childIncludeUp (addFilterList (g0 :: gs) 0 t p) p.dropLast true
          else addFilterList (g0 :: gs) 0 t p := by
        rw [addFilterGo]
      have hleaf : ∀ L d, getAt? t L = some (.node d []) →
          getAt? (addFilterList (g0 :: gs) 0 t p) L =
            some (.node (if isUnder p L && !d.filtered then
              setIncludedData d true else d) []) := by
        intro L d hL
        have h := hl1 L d hL
        rw [h]
        have hany : ((List.range (g0 :: gs : List FT).length).any fun k =>
            isUnder (p ++ [0 + k]) L) = isUnder p L := by
          simp only [Nat.zero_add]
          rw [hlen]
          exact any_child_isUnder hsub hne hL
        rw [hany]
      rw [hgo]
      by_cases hp1 : 1 < p.length
      · rw [if_pos hp1]
        obtain ⟨sd2, scs2, hp2, hscs2⟩ : ∃ sd2 scs2,
            getAt? (addFilterList (g0 :: gs) 0 t p) p = some (.node sd2 scs2) ∧
            stripList scs2 = stripList cs2 := by
          have htrans := strip_getAt hs1 p
          rw [hsub] at htrans
          cases hg2 : getAt? (addFilterList (g0 :: gs) 0 t p) p with
          | none => rw [hg2] at htrans; cases htrans
          | some s2 =>
            rw [hg2] at htrans
            simp only [Option.map_some'] at htrans
            have hss2 : stripData s2 =
                FT.node ⟨"", "", true, false, Font.plain, true, false⟩
                  (stripList cs2) := by
              rw [Option.some.inj htrans]
              rfl
            obtain ⟨sd2, scs2, rfl, hcs3⟩ := stripData_node_inv hss2
            exact ⟨sd2, scs2, rfl, hcs3⟩
        have hp0 : p ≠ [] := by
          intro h
          subst h
          simp at hp1
        have hsplit : p.dropLast ++ [p.getLast hp0] = p :=
          List.dropLast_append_getLast hp0
        obtain ⟨pd, pcs, hpar1, hpar2⟩ : ∃ pd pcs,
            getAt? (addFilterList (g0 :: gs) 0 t p) p.dropLast =
              some (.node pd pcs) ∧ pcs ≠ [] := by
          have hq2 : getAt? (addFilterList (g0 :: gs) 0 t p)
              (p.dropLast ++ [p.getLast hp0]) = some (.node sd2 scs2) := by
            rw [hsplit]
            exact hp2
          exact getAt_parent hq2
        have hmain := childIncludeUp_main p.dropLast.length p.dropLast (le_refl _)
          (addFilterList (g0 :: gs) 0 t p) true pd pcs hpar1 hpar2
        refine ⟨?_, ?_⟩
        · rw [hmain.2, hs1]
        · intro L d hL
          exact hmain.1 L _ (hleaf L d hL)
      · rw [if_neg hp1]
        exact ⟨hs1, hleaf⟩

/-- **C8 (amended).** `add_filter_children` on the whole tree preserves its
shape and forces `included = true` exactly on the leaves whose `filtered`
flag is off: an unfiltered leaf receives `set_included(True)` and a
filtered-out leaf keeps its record unchanged.  The frame half of the
original claim fails: a directory with no matching descendant is not always
left untouched, because every directory at depth greater than one
unconditionally runs `child_include(True)` on its parent after recursing
(see the counterexample on `tFiltered`). -/
theorem addFilter_leaf_spec (t : FT) :
    stripData (addFilterMatches t) = stripData t ∧
    ∀ (L : List ℕ) (d : NData), getAt? t L = some (.node d []) →
      getAt? (addFilterMatches t) L =
        some (.node (if d.filtered then d else setIncludedData d true) []) := by
  obtain ⟨h1, h2⟩ := addFilterGo_spec t t [] t (by simp [getAt?]) rfl
  refine ⟨h1, ?_⟩
  intro L d hL
  have h3 := h2 L d hL
  rw [show addFilterMatches t = addFilterGo t t [] from rfl, h3]
  cases hf : d.filtered <;> simp [isUnder, hf]

/-- Witness for the amended C8 on `tFilterMix`: the unfiltered excluded
leaf `a.fbx` at path `[1]` is forced included by `add_filter_children`. -/
theorem addFilter_leaf_spec_witness :
    getAt? (addFilterMatches tFilterMix) [1] =
      some (.node (setIncludedData
        ⟨"/src/a.fbx", "a.fbx", false, true, Font.bold, true, false⟩ true) []) := by
  have h := (addFilter_leaf_spec tFilterMix).2 [1]
    ⟨"/src/a.fbx", "a.fbx", false, true, Font.bold, true, false⟩ (by decide)
  simpa using h

/-- Counterexample to C8's frame part: every leaf of `tFiltered` is
filtered out, so the directory `A` at path `[0]` has no descendant leaf
matching the filter; it starts excluded with a bold label, yet after
`add_filter_children` it is included with an oblique label (its child
directory `B` sits at depth 2 and unconditionally runs
`child_include(True)` on it). -/
theorem addFilter_touches_nonmatching_dir :
    ((leavesData tFiltered).all fun ld => ld.filtered) = true ∧
    (getAt? tFiltered [0]).map
        (fun s => (s.data.included, s.data.bolded, s.data.font)) =
      some (false, true, Font.bold) ∧
    (getAt? (addFilterMatches tFiltered) [0]).map
        (fun s => (s.data.included, s.data.bolded, s.data.font)) =
      some (true, true, Font.oblique) := by
  refine ⟨by decide, by decide, ?_⟩
  have hrun : addFilterMatches tFiltered = childIncludeUp tFiltered [0] true := rfl
  have hstep : childIncludeUp tFiltered [0] true =
      FT.node ⟨"/src", "src", false, true, Font.bold, true, false⟩
        [FT.node ⟨"/src/A", "A", true, true, Font.oblique, true, false⟩
          [FT.node ⟨"/src/A/B", "B", false, true, Font.bold, true, false⟩
            [FT.node ⟨"/src/A/B/c.txt", "c.txt", false, true, Font.bold, true, true⟩
              []]]] := by
    rw [childIncludeUp]
    rfl
  rw [hrun, hstep]
  decide

end BatchProc
